import Mathlib

/-!
# A user store kept as a JSON array in one file (`main.go`)

The program keeps `[]User` in a file and offers `list`, `add`, `remove`,
`findById`, dispatched by `Perform`.  This development embeds

* Go strings and `[]byte` as lists of bytes (`List Nat`, a byte is a natural
  below 256),
* the part of `encoding/json` the program runs: `json.Marshal` of `User` and
  `[]User`, `json.Unmarshal` into `*User` and `*Users` (scanner, unquoting,
  field matching, `strconv.ParseInt`), with `unicode/utf8` underneath,
* the part of `os` the program runs: a file system saying for each name
  whether a file is there (and its content), can be created, or cannot be
  opened, and a file handle with a read/write offset,
* the functions of `main.go`, one definition each, under their own names.

Assumptions of the embedding: `int` is 64 bits wide; an open regular file can
always be read, written, truncated and repositioned.  Whether a name can be
opened or a file created under it is part of the file system (`Node`), so
opening can fail; the empty name and, where no file exists, a name with a NUL
byte are refused whatever the file system says.  No file has the empty name,
so statements about a file that exists take its name to be non-empty.

Recursive definitions carry a bound on their recursion as first argument; the
section on bounds shows that the bounds the callers pass are never reached.
-/

namespace UserStore

/-! ## Bytes -/

/-- The bytes of a Go string or `[]byte`. -/
abbrev Bytes := List Nat

/-- Code point of `utf8.RuneError`, U+FFFD. -/
def RuneError : Nat := 0xFFFD

/-- Size and accepted range of the second byte for a lead byte, after the
tables `first` and `acceptRanges` of `unicode/utf8`; `none` for a byte that
starts no sequence of more than one byte. -/
def leadInfo (p0 : Nat) : Option (Nat × Nat × Nat) :=
  if 0xC2 ≤ p0 ∧ p0 ≤ 0xDF then some (2, 0x80, 0xBF)
  else if p0 = 0xE0 then some (3, 0xA0, 0xBF)
  else if 0xE1 ≤ p0 ∧ p0 ≤ 0xEC then some (3, 0x80, 0xBF)
  else if p0 = 0xED then some (3, 0x80, 0x9F)
  else if 0xEE ≤ p0 ∧ p0 ≤ 0xEF then some (3, 0x80, 0xBF)
  else if p0 = 0xF0 then some (4, 0x90, 0xBF)
  else if 0xF1 ≤ p0 ∧ p0 ≤ 0xF3 then some (4, 0x80, 0xBF)
  else if p0 = 0xF4 then some (4, 0x80, 0x8F)
  else none

/-- Go `utf8.DecodeRune`: the first rune of `p` and its width in bytes; an
invalid or truncated sequence gives `(RuneError, 1)`, the empty input
`(RuneError, 0)`.  Masks and shifts are written as `%` and `*`. -/
def decodeRune : Bytes → Nat × Nat
  | [] => (RuneError, 0)
  | p0 :: rest =>
    if p0 < 0x80 then (p0, 1)
    else
      match leadInfo p0 with
      | none => (RuneError, 1)
      | some (sz, lo, hi) =>
        match rest with
        | [] => (RuneError, 1)
        | b1 :: rest1 =>
          if b1 < lo ∨ hi < b1 then (RuneError, 1)
          else if sz ≤ 2 then (p0 % 32 * 64 + b1 % 64, 2)
          else
            match rest1 with
            | [] => (RuneError, 1)
            | b2 :: rest2 =>
              if b2 < 0x80 ∨ 0xBF < b2 then (RuneError, 1)
              else if sz ≤ 3 then (p0 % 16 * 4096 + b1 % 64 * 64 + b2 % 64, 3)
              else
                match rest2 with
                | [] => (RuneError, 1)
                | b3 :: _ =>
                  if b3 < 0x80 ∨ 0xBF < b3 then (RuneError, 1)
                  else (p0 % 8 * 262144 + b1 % 64 * 4096 + b2 % 64 * 64 + b3 % 64, 4)

/-- Go `utf8.EncodeRune` (`utf8.AppendRune`): the UTF-8 bytes of a rune; a
surrogate or a value above U+10FFFF is written as U+FFFD. -/
def encodeRune (r : Nat) : Bytes :=
  if r ≤ 0x7F then [r]
  else if r ≤ 0x7FF then [0xC0 + r / 64, 0x80 + r % 64]
  else if 0x10FFFF < r ∨ (0xD800 ≤ r ∧ r ≤ 0xDFFF) then [0xEF, 0xBF, 0xBD]
  else if r ≤ 0xFFFF then [0xE0 + r / 4096, 0x80 + r / 64 % 64, 0x80 + r % 64]
  else [0xF0 + r / 262144, 0x80 + r / 4096 % 64, 0x80 + r / 64 % 64, 0x80 + r % 64]

/-- The bytes of a Go string literal. -/
def bytesOf (s : String) : Bytes := s.toList.flatMap (fun c => encodeRune c.toNat)

/-- Whether a byte string is valid UTF-8: `utf8.DecodeRune` never reports an
error of width 1 while walking it (Go `utf8.Valid`).  The first argument bounds
the number of runes. -/
def validUTF8Aux : Nat → Bytes → Bool
  | _, [] => true
  | 0, _ :: _ => false
  | n + 1, b :: rest =>
    if b < 0x80 then validUTF8Aux n rest
    else
      let rs := decodeRune (b :: rest)
      if rs.2 ≤ 1 then false else validUTF8Aux n ((b :: rest).drop rs.2)

/-- Go `utf8.Valid`. -/
def validUTF8 (s : Bytes) : Bool := validUTF8Aux s.length s

/-! ## `json.Marshal` for `User` and `[]User` -/

/-- The table `hex = "0123456789abcdef"` of `encoding/json`. -/
def hexDigit (n : Nat) : Nat := if n < 10 then 48 + n else 87 + n

/-- The table `htmlSafeSet` of `encoding/json`: ASCII bytes written as they
are, that is all of 0x20..0x7F but the quote, backslash, less-than,
greater-than and ampersand. -/
def htmlSafe (b : Nat) : Bool :=
  decide (0x20 ≤ b) && decide (b < 0x80) && !(b = 0x22 || b = 0x5C || b = 0x3C || b = 0x3E || b = 0x26)

/-- The escape `appendString` writes for an ASCII byte outside `htmlSafeSet`
(as of Go 1.22; earlier releases write `\u0008` and `\u000c` where this writes
`\b` and `\f`, which the decoder reads alike). -/
def escapeByte (b : Nat) : Bytes :=
  if b = 0x5C ∨ b = 0x22 then [0x5C, b]
  else if b = 0x08 then [0x5C, 0x62]
  else if b = 0x0C then [0x5C, 0x66]
  else if b = 0x0A then [0x5C, 0x6E]
  else if b = 0x0D then [0x5C, 0x72]
  else if b = 0x09 then [0x5C, 0x74]
  else [0x5C, 0x75, 0x30, 0x30, hexDigit (b / 16), hexDigit (b % 16)]

/-- The loop of `appendString` (with `escapeHTML`, as `json.Marshal` sets it):
what stands between the two quotes.  The first argument bounds the number of
iterations. -/
def quoteBody : Nat → Bytes → Bytes
  | _, [] => []
  | 0, _ :: _ => []
  | n + 1, b :: rest =>
    if b < 0x80 then
      if htmlSafe b then b :: quoteBody n rest
      else escapeByte b ++ quoteBody n rest
    else
      let rs := decodeRune (b :: rest)
      if rs.1 = RuneError ∧ rs.2 = 1 then
        bytesOf "\\ufffd" ++ quoteBody n rest
      else if rs.1 = 0x2028 ∨ rs.1 = 0x2029 then
        bytesOf "\\u202" ++ hexDigit (rs.1 % 16) :: quoteBody n ((b :: rest).drop rs.2)
      else
        (b :: rest).take rs.2 ++ quoteBody n ((b :: rest).drop rs.2)

/-- Go `appendString`: a Go string as a JSON string. -/
def appendString (s : Bytes) : Bytes := 0x22 :: quoteBody s.length s ++ [0x22]

/-- Decimal digits of a natural, most significant first; the first argument
bounds the number of digits. -/
def decDigits : Nat → Nat → Bytes
  | 0, _ => []
  | f + 1, n => if n < 10 then [48 + n] else decDigits f (n / 10) ++ [48 + n % 10]

/-- Go `strconv.AppendInt(_, v, 10)`. -/
def formatInt (v : Int) : Bytes :=
  if v < 0 then 0x2D :: decDigits (v.natAbs + 1) v.natAbs else decDigits (v.natAbs + 1) v.natAbs

/-! ## `json.Unmarshal` into `*User` and `*Users`

`json.Unmarshal` first runs the scanner over the whole input (`checkValid`) and
then decodes with the same scanner, skipping what the target has no place for.
Here the scanner builds the value it accepts (`parseJSON`), and the decoding
into the Go types works on that value (`decodeUser`, `decodeUsers`). -/

/-- A JSON text as the scanner accepts it.  Strings are held unquoted
(`unquoteBytes`), numbers as their literal. -/
inductive JValue where
  | null : JValue
  | bool : Bool → JValue
  | num : Bytes → JValue
  | str : Bytes → JValue
  | arr : List JValue → JValue
  | obj : List (Bytes × JValue) → JValue

/-- The scanner's `isSpace`. -/
def isSpace (c : Nat) : Bool := c = 0x20 || c = 0x09 || c = 0x0D || c = 0x0A

/-- Drop leading JSON white space. -/
def skipSpace : Bytes → Bytes
  | [] => []
  | c :: r => if isSpace c then skipSpace r else c :: r

/-- Value of a hexadecimal digit, as `getu4` reads it. -/
def hexVal (c : Nat) : Option Nat :=
  if 0x30 ≤ c ∧ c ≤ 0x39 then some (c - 0x30)
  else if 0x61 ≤ c ∧ c ≤ 0x66 then some (c - 0x61 + 10)
  else if 0x41 ≤ c ∧ c ≤ 0x46 then some (c - 0x41 + 10)
  else none

/-- Go `getu4`: the value of a leading `\uXXXX`, `none` where Go returns -1. -/
def getu4 (s : Bytes) : Option Nat :=
  match s with
  | e :: u :: a :: b :: c :: d :: _ =>
    if e = 0x5C ∧ u = 0x75 then
      match hexVal a, hexVal b, hexVal c, hexVal d with
      | some a, some b, some c, some d => some (a * 4096 + b * 256 + c * 16 + d)
      | _, _, _, _ => none
    else none
  | _ => none

/-- Go `utf16.IsSurrogate`. -/
def isSurrogate (r : Nat) : Bool := decide (0xD800 ≤ r) && decide (r < 0xE000)

/-- Go `utf16.DecodeRune`: the code point of a surrogate pair, U+FFFD when the
two halves are no pair. -/
def utf16DecodeRune (r1 r2 : Nat) : Nat :=
  if 0xD800 ≤ r1 ∧ r1 < 0xDC00 ∧ 0xDC00 ≤ r2 ∧ r2 < 0xE000 then
    (r1 - 0xD800) * 1024 + (r2 - 0xDC00) + 0x10000
  else RuneError

/-- The byte a one-letter escape stands for, for the letters the scanner
accepts after a backslash (`u` apart). -/
def unescape (e : Nat) : Option Nat :=
  if e = 0x22 ∨ e = 0x5C ∨ e = 0x2F then some e
  else if e = 0x62 then some 0x08
  else if e = 0x66 then some 0x0C
  else if e = 0x6E then some 0x0A
  else if e = 0x72 then some 0x0D
  else if e = 0x74 then some 0x09
  else none

/-- Put `p` in front of the unquoted text of a scan result. -/
def prepend (p : Bytes) (r : Option (Bytes × Bytes)) : Option (Bytes × Bytes) :=
  r.map (fun x => (p ++ x.1, x.2))

/-- A JSON string from just after its opening quote: the scanner's string
states together with `unquoteBytes`.  Returns the unquoted text and what follows
the closing quote; `none` is a syntax error (control character, bad escape, no
closing quote).  Invalid UTF-8 and unpaired surrogate escapes become U+FFFD.
The first argument bounds the number of iterations. -/
def scanString : Nat → Bytes → Option (Bytes × Bytes)
  | 0, _ => none
  | _ + 1, [] => none
  | f + 1, c :: rest =>
    if c = 0x22 then some ([], rest)
    else if c = 0x5C then
      match rest with
      | [] => none
      | e :: rest1 =>
        if e = 0x75 then
          match getu4 (c :: rest) with
          | none => none
          | some rr =>
            if isSurrogate rr then
              let dec := match getu4 (rest1.drop 4) with
                | some rr1 => utf16DecodeRune rr rr1
                | none => RuneError
              if dec ≠ RuneError then prepend (encodeRune dec) (scanString f (rest1.drop 10))
              else prepend (encodeRune RuneError) (scanString f (rest1.drop 4))
            else prepend (encodeRune rr) (scanString f (rest1.drop 4))
        else
          match unescape e with
          | some b => prepend [b] (scanString f rest1)
          | none => none
    else if c < 0x20 then none
    else if c < 0x80 then prepend [c] (scanString f rest)
    else
      let rs := decodeRune (c :: rest)
      prepend (encodeRune rs.1) (scanString f ((c :: rest).drop rs.2))

/-- ASCII decimal digit. -/
def isDigit (b : Nat) : Bool := decide (0x30 ≤ b) && decide (b ≤ 0x39)

/-- The longest run of digits at the front, and the rest. -/
def takeDigits : Bytes → Bytes × Bytes
  | [] => ([], [])
  | b :: r => if isDigit b then (b :: (takeDigits r).1, (takeDigits r).2) else ([], b :: r)

/-- Integer part of a number: `0`, or a digit from 1 to 9 and more digits. -/
def scanIntPart (s : Bytes) : Option (Bytes × Bytes) :=
  match s with
  | [] => none
  | d :: r =>
    if d = 0x30 then some ([d], r)
    else if 0x31 ≤ d ∧ d ≤ 0x39 then some (d :: (takeDigits r).1, (takeDigits r).2)
    else none

/-- Optional fraction: a dot and at least one digit. -/
def scanFrac (s : Bytes) : Option (Bytes × Bytes) :=
  match s with
  | [] => some ([], [])
  | c :: r =>
    if c = 0x2E then
      if (takeDigits r).1 = [] then none else some (c :: (takeDigits r).1, (takeDigits r).2)
    else some ([], c :: r)

/-- Optional exponent: `e` or `E`, an optional sign, at least one digit. -/
def scanExp (s : Bytes) : Option (Bytes × Bytes) :=
  match s with
  | [] => some ([], [])
  | c :: r =>
    if c = 0x65 ∨ c = 0x45 then
      match r with
      | [] => none
      | g :: r1 =>
        if g = 0x2B ∨ g = 0x2D then
          if (takeDigits r1).1 = [] then none
          else some (c :: g :: (takeDigits r1).1, (takeDigits r1).2)
        else
          if (takeDigits r).1 = [] then none
          else some (c :: (takeDigits r).1, (takeDigits r).2)
    else some ([], c :: r)

/-- A JSON number as the scanner accepts it: the literal and what follows. -/
def scanNumber (s : Bytes) : Option (Bytes × Bytes) :=
  let sign : Bytes := match s with
    | c :: _ => if c = 0x2D then [c] else []
    | [] => []
  match scanIntPart (s.drop sign.length) with
  | none => none
  | some (i, s1) =>
    match scanFrac s1 with
    | none => none
    | some (fr, s2) =>
      match scanExp s2 with
      | none => none
      | some (ex, s3) => some (sign ++ i ++ fr ++ ex, s3)

/-- The scanner's `maxNestingDepth`. -/
def maxNestingDepth : Nat := 10000

/-- Whether `s` starts with `p`; gives the rest. -/
def stripLit (p s : Bytes) : Option Bytes :=
  if p.isPrefixOf s then some (s.drop p.length) else none

mutual
/-- One JSON value, leading white space allowed: the value and what follows it.
`d` counts the arrays and objects around it (`exceeded max depth` beyond
`maxNestingDepth`); the first argument bounds the recursion. -/
def parseValue : Nat → Nat → Bytes → Option (JValue × Bytes)
  | 0, _, _ => none
  | f + 1, d, s =>
    match skipSpace s with
    | [] => none
    | c :: r =>
      if c = 0x7B then
        if maxNestingDepth < d + 1 then none
        else
          match skipSpace r with
          | [] => none
          | c1 :: r1 =>
            if c1 = 0x7D then some (JValue.obj [], r1)
            else (parseMembers f (d + 1) r).map (fun x => (JValue.obj x.1, x.2))
      else if c = 0x5B then
        if maxNestingDepth < d + 1 then none
        else
          match skipSpace r with
          | [] => none
          | c1 :: r1 =>
            if c1 = 0x5D then some (JValue.arr [], r1)
            else (parseElems f (d + 1) r).map (fun x => (JValue.arr x.1, x.2))
      else if c = 0x22 then (scanString (r.length + 1) r).map (fun x => (JValue.str x.1, x.2))
      else if c = 0x2D ∨ isDigit c then (scanNumber (c :: r)).map (fun x => (JValue.num x.1, x.2))
      else if c = 0x74 then (stripLit (bytesOf "true") (c :: r)).map (fun x => (JValue.bool true, x))
      else if c = 0x66 then (stripLit (bytesOf "false") (c :: r)).map (fun x => (JValue.bool false, x))
      else if c = 0x6E then (stripLit (bytesOf "null") (c :: r)).map (fun x => (JValue.null, x))
      else none
/-- The elements of a non-empty array, from its first value to the closing
bracket. -/
def parseElems : Nat → Nat → Bytes → Option (List JValue × Bytes)
  | 0, _, _ => none
  | f + 1, d, s =>
    match parseValue f d s with
    | none => none
    | some (v, r) =>
      match skipSpace r with
      | [] => none
      | c :: r1 =>
        if c = 0x2C then (parseElems f d r1).map (fun x => (v :: x.1, x.2))
        else if c = 0x5D then some ([v], r1)
        else none
/-- The members of a non-empty object, from its first key to the closing
brace. -/
def parseMembers : Nat → Nat → Bytes → Option (List (Bytes × JValue) × Bytes)
  | 0, _, _ => none
  | f + 1, d, s =>
    match skipSpace s with
    | [] => none
    | q :: r =>
      if q = 0x22 then
        match scanString (r.length + 1) r with
        | none => none
        | some (k, r1) =>
          match skipSpace r1 with
          | [] => none
          | c :: r2 =>
            if c = 0x3A then
              match parseValue f d r2 with
              | none => none
              | some (v, r3) =>
                match skipSpace r3 with
                | [] => none
                | c1 :: r4 =>
                  if c1 = 0x2C then (parseMembers f d r4).map (fun x => ((k, v) :: x.1, x.2))
                  else if c1 = 0x7D then some ([(k, v)], r4)
                  else none
            else none
      else none
end

/-- The whole input as one JSON value with white space around it
(`checkValid`); `none` is a `SyntaxError`. -/
def parseJSON (input : Bytes) : Option JValue :=
  match parseValue (2 * input.length + 2) 0 input with
  | none => none
  | some (v, r) => if skipSpace r = [] then some v else none

/-! ### Decoding into the Go types -/

/-- The error numbers a `*fs.PathError` of `os.OpenFile` or `os.ReadFile`
carries. -/
inductive Errno where
  | ENOENT : Errno
  | EINVAL : Errno
  | EACCES : Errno
  | EISDIR : Errno
  | ENOTDIR : Errno
  | ENAMETOOLONG : Errno
  deriving DecidableEq, Repr

/-- The errors the program can return. -/
inductive Err where
  /-- The value of `errors.New` with this text. -/
  | text : Bytes → Err
  /-- A `*json.SyntaxError`: the input is no JSON text. -/
  | invalidJSON : Err
  /-- A `*json.UnmarshalTypeError`: a JSON value has no place in the Go type. -/
  | wrongType : Err
  /-- A `*fs.PathError` with this error number. -/
  | pathError : Errno → Err
  /-- The error of a failed `Write` on the output. -/
  | sinkFailed : Err
  deriving DecidableEq, Repr

/-- Equality of results is decidable. -/
instance instDecidableEqExcept {ε α : Type} [DecidableEq ε] [DecidableEq α] : DecidableEq (Except ε α)
  | Except.ok a, Except.ok b =>
    if h : a = b then isTrue (by rw [h]) else isFalse (fun h1 => h (by injection h1))
  | Except.error a, Except.error b =>
    if h : a = b then isTrue (by rw [h]) else isFalse (fun h1 => h (by injection h1))
  | Except.ok _, Except.error _ => isFalse (fun h => by injection h)
  | Except.error _, Except.ok _ => isFalse (fun h => by injection h)

/-- Go `type User struct`, with `Age` an `int`. -/
structure User where
  Id : Bytes
  Email : Bytes
  Age : Int
  deriving DecidableEq, Repr

/-- Go `type Users []User`: a slice is nil or holds a sequence of records. -/
inductive Users where
  | nil : Users
  | slice : List User → Users
  deriving DecidableEq, Repr

/-- The records of a slice, none for nil. -/
def Users.items : Users → List User
  | Users.nil => []
  | Users.slice l => l

/-- Go `strconv.ParseUint(_, 10, 64)` before its range check: one digit at
least and digits only. -/
def parseUint (ds : Bytes) : Option Nat :=
  if ds = [] then none
  else if ds.all isDigit then some (ds.foldl (fun acc d => acc * 10 + (d - 0x30)) 0)
  else none

/-- Go `strconv.ParseInt(_, 10, 64)`: an optional sign, digits, and the value
within `-2^63 .. 2^63 - 1`. -/
def parseInt (s : Bytes) : Option Int :=
  match s with
  | [] => none
  | c :: r =>
    match parseUint (if c = 0x2B ∨ c = 0x2D then r else c :: r) with
    | none => none
    | some un =>
      if c = 0x2D then
        if 2 ^ 63 < un then none else some (-(un : Int))
      else
        if 2 ^ 63 ≤ un then none else some (un : Int)

/-- Go `foldName` on ASCII: letters in upper case.  (Outside ASCII only U+017F
and U+212A fold to a letter, `S` and `K`, which no field name of `User` has.) -/
def foldName (key : Bytes) : Bytes :=
  key.map (fun c => if 0x61 ≤ c ∧ c ≤ 0x7A then c - 0x20 else c)

/-- Whether an object key selects the field with this JSON name: the exact name
or, failing that, the same name under `foldName`. -/
def keyIs (key : Bytes) (name : String) : Bool :=
  key = bytesOf name || foldName key = foldName (bytesOf name)

/-- Store one object member into a `User`, as `(*decodeState).object` does: a
key that names no field is skipped, `null` leaves the field as it is, a string
goes into a string field and an integer literal within range into `Age`,
anything else is an `UnmarshalTypeError`. -/
def storeField (u : User) (m : Bytes × JValue) : Except Err User :=
  if keyIs m.1 "id" then
    match m.2 with
    | JValue.str s => Except.ok { u with Id := s }
    | JValue.null => Except.ok u
    | _ => Except.error Err.wrongType
  else if keyIs m.1 "email" then
    match m.2 with
    | JValue.str s => Except.ok { u with Email := s }
    | JValue.null => Except.ok u
    | _ => Except.error Err.wrongType
  else if keyIs m.1 "age" then
    match m.2 with
    | JValue.num lit =>
      match parseInt lit with
      | some n => Except.ok { u with Age := n }
      | none => Except.error Err.wrongType
    | JValue.null => Except.ok u
    | _ => Except.error Err.wrongType
  else Except.ok u

/-- Store the members of an object one after the other. -/
def storeMembers : List (Bytes × JValue) → User → Except Err User
  | [], u => Except.ok u
  | m :: ms, u =>
    match storeField u m with
    | Except.ok u1 => storeMembers ms u1
    | Except.error e => Except.error e

/-- Decode a JSON value into a zero `User`: an object fills the fields, `null`
changes nothing, any other value is an `UnmarshalTypeError`. -/
def decodeUser : JValue → Except Err User
  | JValue.obj ms => storeMembers ms ⟨[], [], 0⟩
  | JValue.null => Except.ok ⟨[], [], 0⟩
  | _ => Except.error Err.wrongType

/-- Decode the elements of an array, each into a zero `User`. -/
def decodeElems : List JValue → Except Err (List User)
  | [] => Except.ok []
  | v :: vs =>
    match decodeUser v with
    | Except.error e => Except.error e
    | Except.ok u =>
      match decodeElems vs with
      | Except.error e => Except.error e
      | Except.ok us => Except.ok (u :: us)

/-- Decode a JSON value into a nil `Users`: an array gives a slice (empty and
not nil for `[]`), `null` leaves nil, any other value is an
`UnmarshalTypeError`. -/
def decodeUsers : JValue → Except Err Users
  | JValue.arr vs =>
    match decodeElems vs with
    | Except.error e => Except.error e
    | Except.ok us => Except.ok (Users.slice us)
  | JValue.null => Except.ok Users.nil
  | _ => Except.error Err.wrongType

/-! ## The codec of `main.go` -/

/-- Go `newUserFromBytes`: `json.Unmarshal(b, &user)`. -/
def newUserFromBytes (b : Bytes) : Except Err User :=
  match parseJSON b with
  | none => Except.error Err.invalidJSON
  | some v => decodeUser v

/-- Go `json.Marshal(user)` for a `User`. -/
def marshalUser (u : User) : Bytes :=
  bytesOf "\x7b\"id\":" ++ appendString u.Id ++ bytesOf ",\"email\":" ++ appendString u.Email
    ++ bytesOf ",\"age\":" ++ formatInt u.Age ++ bytesOf "\x7d"

/-- The elements of an encoded array, with commas between them. -/
def marshalElems : List User → Bytes
  | [] => []
  | [u] => marshalUser u
  | u :: v :: us => marshalUser u ++ 0x2C :: marshalElems (v :: us)

/-- Go `Users.toBytes`: `json.Marshal(us)`, which cannot fail for this type; a
nil slice is `null`. -/
def Users.toBytes : Users → Bytes
  | Users.nil => bytesOf "null"
  | Users.slice l => 0x5B :: marshalElems l ++ [0x5D]

/-- Go `newUsersFromBytes`: `json.Unmarshal(input, &users)`. -/
def newUsersFromBytes (input : Bytes) : Except Err Users :=
  match parseJSON input with
  | none => Except.error Err.invalidJSON
  | some v => decodeUsers v

/-! ## Files -/

/-- What the system holds under a name. -/
inductive Node where
  /-- A regular file that can be opened for reading and writing, with its
  content. -/
  | file : Bytes → Node
  /-- No file, and the system creates one when asked: the directory exists and
  can be written to, and the name is one the system takes. -/
  | free : Node
  /-- Neither opening nor creating succeeds; the system answers with this error
  number: the directory is missing (`ENOENT`), a part of the path is no
  directory (`ENOTDIR`), the name is that of a directory (`EISDIR`), is too long
  (`ENAMETOOLONG`), or access is denied (`EACCES`). -/
  | fails : Errno → Node
  deriving DecidableEq, Repr

/-- The file system: what the system holds under each name. -/
abbrev FS := Bytes → Node

/-- An open `*os.File`: the name it was opened under and its offset. -/
structure File where
  name : Bytes
  offset : Nat
  deriving DecidableEq, Repr

/-- The content under a name, empty where there is no file. -/
def Node.content : Node → Bytes
  | Node.file b => b
  | Node.free => []
  | Node.fails _ => []

/-- Content of an open file. -/
def File.content (file : File) (fs : FS) : Bytes := (fs file.name).content

/-- Go `os.OpenFile(name, os.O_RDWR|os.O_CREATE, 0644)`: an existing file is
opened and left as it is.  Where there is none, one is created empty if the
system allows it; otherwise the error is returned and nothing is created.  A
name with a NUL byte never reaches the system: Go returns `EINVAL` for it; no
file exists under such a name, so the check stands where no file is found.
The offset of the handle is 0. -/
def openFile (name : Bytes) (fs : FS) : Except Err (File × FS) :=
  if name = [] then Except.error (Err.pathError Errno.ENOENT)
  else
    match fs name with
    | Node.file _ => Except.ok (⟨name, 0⟩, fs)
    | Node.free =>
      if 0 ∈ name then Except.error (Err.pathError Errno.EINVAL)
      else Except.ok (⟨name, 0⟩, Function.update fs name (Node.file []))
    | Node.fails errno =>
      if 0 ∈ name then Except.error (Err.pathError Errno.EINVAL)
      else Except.error (Err.pathError errno)

/-- Go `ioutil.ReadAll(file)`: the bytes from the offset to the end; the offset
ends up at the end of the file. -/
def File.readAll (file : File) (fs : FS) : Bytes × File :=
  ((file.content fs).drop file.offset, { file with offset := max file.offset (file.content fs).length })

/-- Go `file.Write(b)`: `b` goes over the content at the offset, lengthening
the file as needed (a gap before the offset reads as zeros); the offset moves
past `b`. -/
def File.write (file : File) (b : Bytes) (fs : FS) : File × FS :=
  ({ file with offset := file.offset + b.length },
   Function.update fs file.name
     (Node.file ((file.content fs).take file.offset
        ++ List.replicate (file.offset - (file.content fs).length) 0
        ++ b ++ (file.content fs).drop (file.offset + b.length))))

/-- Go `file.Truncate(size)`: the content cut or zero-filled to `size`; the
offset stays. -/
def File.truncate (file : File) (size : Nat) (fs : FS) : FS :=
  Function.update fs file.name
    (Node.file ((file.content fs).take size ++ List.replicate (size - (file.content fs).length) 0))

/-- Go `file.Seek(off, 0)`: the offset set from the start of the file. -/
def File.seek (file : File) (off : Nat) : File := { file with offset := off }

/-- Go `os.ReadFile(name)`: the content of an existing file; an error where
there is none, and nothing is created. -/
def readFile (name : Bytes) (fs : FS) : Except Err Bytes :=
  if name = [] then Except.error (Err.pathError Errno.ENOENT)
  else
    match fs name with
    | Node.file b => Except.ok b
    | Node.free =>
      if 0 ∈ name then Except.error (Err.pathError Errno.EINVAL)
      else Except.error (Err.pathError Errno.ENOENT)
    | Node.fails errno =>
      if 0 ∈ name then Except.error (Err.pathError Errno.EINVAL)
      else Except.error (Err.pathError errno)

/-! ## The operations of `main.go` -/

/-- What `getUsersFromFile` does with the bytes it has read: an empty file
counts as `[]`. -/
def usersOfBytes (byteValue : Bytes) : Except Err Users :=
  newUsersFromBytes (if byteValue.length = 0 then bytesOf "[]" else byteValue)

/-- Go `getUsersFromFile`: read the file from its offset to the end and decode;
returns the handle with its new offset. -/
def getUsersFromFile (file : File) (fs : FS) : Except Err Users × File :=
  (usersOfBytes (file.readAll fs).1, (file.readAll fs).2)

/-- Go `list`: the result or error, and the file system, which it only
reads. -/
def list (fileName : Bytes) (fs : FS) : Except Err Bytes × FS :=
  if fileName = [] then
    (Except.error (Err.text (bytesOf "-fileName flag has to be specified")), fs)
  else (readFile fileName fs, fs)

/-- Go `isIdExists`. -/
def isIdExists : List User → Bytes → Bool
  | [], _ => false
  | user :: users, id => if id = user.Id then true else isIdExists users id

/-- Go `add`: the result or error, and the file system afterwards. -/
def add (item fileName : Bytes) (fs : FS) : Except Err Bytes × FS :=
  if item = [] then (Except.error (Err.text (bytesOf "-item flag has to be specified")), fs)
  else
    match newUserFromBytes item with
    | Except.error e => (Except.error e, fs)
    | Except.ok userItem =>
      match openFile fileName fs with
      | Except.error e => (Except.error e, fs)
      | Except.ok (file, fs1) =>
        match getUsersFromFile file fs1 with
        | (Except.error e, _) => (Except.error e, fs1)
        | (Except.ok users, file1) =>
          if isIdExists users.items userItem.Id then
            (Except.ok (bytesOf "Item with id " ++ userItem.Id ++ bytesOf " already exists"), fs1)
          else
            (Except.ok [],
              (file1.write (Users.slice (users.items ++ [userItem])).toBytes fs1).2)

/-- The loop of `remove`: the index of the first record with this id, `none`
where the loop leaves `index` at -1. -/
def indexOfId : List User → Bytes → Option Nat
  | [], _ => none
  | user :: users, id => if user.Id = id then some 0 else (indexOfId users id).map (· + 1)

/-- Go `remove`: the result or error, and the file system afterwards. -/
def remove (id fileName : Bytes) (fs : FS) : Except Err Bytes × FS :=
  if id = [] then (Except.error (Err.text (bytesOf "-id flag has to be specified")), fs)
  else
    match openFile fileName fs with
    | Except.error e => (Except.error e, fs)
    | Except.ok (file, fs1) =>
      match getUsersFromFile file fs1 with
      | (Except.error e, _) => (Except.error e, fs1)
      | (Except.ok users, file1) =>
        match indexOfId users.items id with
        | none => (Except.ok (bytesOf "Item with id 2 not found"), fs1)
        | some index =>
          (Except.ok [],
            ((file1.seek 0).write
              (Users.slice (users.items.take index ++ users.items.drop (index + 1))).toBytes
              (file1.truncate 0 fs1)).2)

/-- The loop of `findById`: the first record with this id. -/
def firstWithId : List User → Bytes → Option User
  | [], _ => none
  | user :: users, id => if user.Id = id then some user else firstWithId users id

/-- Go `findById`: the result or error, and the file system afterwards. -/
def findById (fileName id : Bytes) (fs : FS) : Except Err Bytes × FS :=
  if id = [] then (Except.error (Err.text (bytesOf "-id flag has to be specified")), fs)
  else
    match openFile fileName fs with
    | Except.error e => (Except.error e, fs)
    | Except.ok (file, fs1) =>
      match getUsersFromFile file fs1 with
      | (Except.error e, _) => (Except.error e, fs1)
      | (Except.ok users, _) =>
        match firstWithId users.items id with
        | some user => (Except.ok (marshalUser user), fs1)
        | none => (Except.ok [], fs1)

/-- Go `type Arguments map[string]string`, read by key: a key that is not in
the map reads as the empty string. -/
abbrev Arguments := Bytes → Bytes

/-- The `io.Writer` handed to `Perform`: the byte slices written so far, one
per call of `Write`, and whether a `Write` fails. -/
structure Writer where
  written : List Bytes
  broken : Bool
  deriving DecidableEq, Repr

/-- Go `writer.Write(b)`. -/
def Writer.write (w : Writer) (b : Bytes) : Option Err × Writer :=
  if w.broken then (some Err.sinkFailed, w) else (none, { w with written := w.written ++ [b] })

/-- The end of `Perform` after the `switch`: an error of the operation is
returned, its result is written to the writer. -/
def deliver (writer : Writer) (r : Except Err Bytes × FS) : Option Err × Writer × FS :=
  match r with
  | (Except.error err, fs1) => (some err, writer, fs1)
  | (Except.ok b, fs1) => ((writer.write b).1, (writer.write b).2, fs1)

/-- Go `Perform`: the error returned (`none` for nil), the writer and the file
system afterwards. -/
def Perform (args : Arguments) (writer : Writer) (fs : FS) : Option Err × Writer × FS :=
  if args (bytesOf "operation") = bytesOf "list" then
    deliver writer (list (args (bytesOf "fileName")) fs)
  else if args (bytesOf "operation") = bytesOf "add" then
    deliver writer (add (args (bytesOf "item")) (args (bytesOf "fileName")) fs)
  else if args (bytesOf "operation") = bytesOf "remove" then
    deliver writer (remove (args (bytesOf "id")) (args (bytesOf "fileName")) fs)
  else if args (bytesOf "operation") = bytesOf "findById" then
    deliver writer (findById (args (bytesOf "fileName")) (args (bytesOf "id")) fs)
  else if args (bytesOf "operation") = [] then
    (some (Err.text (bytesOf "-operation flag has to be specified")), writer, fs)
  else
    (some (Err.text (bytesOf "Operation " ++ args (bytesOf "operation")
      ++ bytesOf " not allowed!")), writer, fs)

/-! ## Notions the statements below use -/

/-- The file system after a successful `os.OpenFile(name, O_RDWR|O_CREATE)`. -/
def created (name : Bytes) (fs : FS) : FS :=
  match fs name with
  | Node.free => Function.update fs name (Node.file [])
  | _ => fs

/-- `os.OpenFile(name, O_RDWR|O_CREATE)` succeeds: a file is there, or one can
be created under a name without a NUL byte. -/
def Openable (name : Bytes) (fs : FS) : Prop :=
  name ≠ [] ∧ ((∃ b, fs name = Node.file b) ∨ (fs name = Node.free ∧ 0 ∉ name))

/-- A Unicode scalar value: a code point that is no surrogate. -/
def ValidRune (r : Nat) : Prop := r < 0xD800 ∨ (0xE000 ≤ r ∧ r ≤ 0x10FFFF)

/-- The value `strconv.ParseUint` accumulates over a digit string. -/
def digitsValue (ds : Bytes) : Nat := ds.foldl (fun acc d => acc * 10 + (d - 0x30)) 0

/-- The JSON value `json.Marshal` writes for a `User`. -/
def userValue (u : User) : JValue :=
  JValue.obj [(bytesOf "id", JValue.str u.Id), (bytesOf "email", JValue.str u.Email),
    (bytesOf "age", JValue.num (formatInt u.Age))]

/-- A record whose strings are valid UTF-8 and whose age is an `int`. -/
def User.WellFormed (u : User) : Prop :=
  validUTF8 u.Id = true ∧ validUTF8 u.Email = true ∧ -(2 : Int) ^ 63 ≤ u.Age ∧ u.Age < (2 : Int) ^ 63

/-- A collection of well-formed records. -/
def Users.WellFormed (c : Users) : Prop := ∀ u ∈ c.items, u.WellFormed

/-- Every string inside a JSON value is valid UTF-8. -/
inductive JValue.WF : JValue → Prop
  | null : JValue.WF JValue.null
  | bool (b : Bool) : JValue.WF (JValue.bool b)
  | num (lit : Bytes) : JValue.WF (JValue.num lit)
  | str (s : Bytes) : validUTF8 s = true → JValue.WF (JValue.str s)
  | arr (vs : List JValue) : (∀ v ∈ vs, JValue.WF v) → JValue.WF (JValue.arr vs)
  | obj (ms : List (Bytes × JValue)) : (∀ m ∈ ms, JValue.WF m.2) → JValue.WF (JValue.obj ms)

/-- Whether a record is well formed can be computed. -/
instance instDecidableUserWellFormed (u : User) : Decidable u.WellFormed :=
  inferInstanceAs (Decidable (validUTF8 u.Id = true ∧ validUTF8 u.Email = true ∧
    -(2 : Int) ^ 63 ≤ u.Age ∧ u.Age < (2 : Int) ^ 63))

/-- Whether a collection is well formed can be computed. -/
instance instDecidableUsersWellFormed (c : Users) : Decidable c.WellFormed :=
  inferInstanceAs (Decidable (∀ u ∈ c.items, u.WellFormed))

/-! ## Sample data -/

/-- The file name `parseArgs` supplies by default. -/
def sampleName : Bytes := bytesOf "users.json"

/-- The item of the worked example. -/
def sampleItem : Bytes := bytesOf "\x7b\"id\":\"1\",\"email\":\"a@x.com\",\"age\":30\x7d"

/-- The record `sampleItem` decodes to. -/
def sampleUser : User := ⟨bytesOf "1", bytesOf "a@x.com", 30⟩

/-- A second record, with another id. -/
def otherUser : User := ⟨bytesOf "7", bytesOf "b@y.org", 41⟩

/-- The file system with no file at all, in which the system would create a
file under whatever name it is asked for. -/
def noFiles : FS := fun _ => Node.free

/-- The file system with one file, in which the system would create a file
under whatever other name it is asked for. -/
def oneFile (name content : Bytes) : FS := fun n => if n = name then Node.file content else Node.free

/-- A name in a directory that does not exist. -/
def nameInNoDir : Bytes := bytesOf "nodir/users.json"

/-- A name with a NUL byte. -/
def nameWithNul : Bytes := [0x61, 0x00, 0x62]

/-- The file system with no file at all and no directory `nodir`: nothing can be
opened or created under `nameInNoDir`, any other file can be created. -/
def noFilesNoDir : FS := fun n => if n = nameInNoDir then Node.fails Errno.ENOENT else Node.free

/-- An argument map with these four entries. -/
def mkArgs (operation item id fileName : Bytes) : Arguments := fun k =>
  if k = bytesOf "operation" then operation
  else if k = bytesOf "item" then item
  else if k = bytesOf "id" then id
  else if k = bytesOf "fileName" then fileName
  else []

/-! ## The file protocol of the four operations -/

theorem openable_of_file {name b : Bytes} {fs : FS} (hname : name ≠ [])
    (h : fs name = Node.file b) : Openable name fs :=
  ⟨hname, Or.inl ⟨b, h⟩⟩

theorem openable_of_free {name : Bytes} {fs : FS} (hname : name ≠ []) (hnul : 0 ∉ name)
    (h : fs name = Node.free) : Openable name fs :=
  ⟨hname, Or.inr ⟨h, hnul⟩⟩

theorem openFile_eq (name : Bytes) (fs : FS) (hopen : Openable name fs) :
    openFile name fs = Except.ok (⟨name, 0⟩, created name fs) := by
  obtain ⟨hname, h⟩ := hopen
  unfold openFile created
  rcases h with ⟨b, h⟩ | ⟨h, hnul⟩
  · simp [hname, h]
  · simp [hname, h, hnul]

/-- Where the system refuses a name, `os.OpenFile` returns its error. -/
theorem openFile_fails (name : Bytes) (fs : FS) (errno : Errno) (hname : name ≠ [])
    (hnul : 0 ∉ name) (h : fs name = Node.fails errno) :
    openFile name fs = Except.error (Err.pathError errno) := by
  simp [openFile, hname, h, hnul]

/-- No file is created under a name with a NUL byte. -/
theorem openFile_nul (name : Bytes) (fs : FS) (hname : name ≠ []) (hnul : 0 ∈ name)
    (h : ∀ b, fs name ≠ Node.file b) :
    openFile name fs = Except.error (Err.pathError Errno.EINVAL) := by
  unfold openFile
  cases hn : fs name with
  | file b => exact absurd hn (h b)
  | free => simp [hname, hnul]
  | fails errno => simp [hname, hnul]

theorem created_of_file {name b : Bytes} {fs : FS} (h : fs name = Node.file b) :
    created name fs = fs := by
  simp [created, h]

theorem created_of_free {name : Bytes} {fs : FS} (h : fs name = Node.free) :
    created name fs = Function.update fs name (Node.file []) := by
  simp [created, h]

theorem content_created (name : Bytes) (k : Nat) (fs : FS) :
    File.content ⟨name, k⟩ (created name fs) = (fs name).content := by
  unfold File.content created
  cases h : fs name <;> simp [h, Node.content]

theorem update_created (name : Bytes) (fs : FS) (x : Node) :
    Function.update (created name fs) name x = Function.update fs name x := by
  unfold created
  cases h : fs name <;> simp

theorem getUsersFromFile_fresh (name : Bytes) (fs : FS) :
    getUsersFromFile ⟨name, 0⟩ (created name fs)
      = (usersOfBytes (fs name).content, ⟨name, (fs name).content.length⟩) := by
  simp [getUsersFromFile, File.readAll, content_created]

theorem newUserFromBytes_nil : newUserFromBytes [] = Except.error Err.invalidJSON := by
  decide

theorem usersOfBytes_nil : usersOfBytes [] = Except.ok (Users.slice []) := by
  decide

/-- What `add` does once the file is open and the item and the file content
decode. -/
theorem add_eq (item fileName : Bytes) (fs : FS) (u : User) (c : Users)
    (hopen : Openable fileName fs) (hitem : newUserFromBytes item = Except.ok u)
    (hdec : usersOfBytes (fs fileName).content = Except.ok c) :
    add item fileName fs =
      if isIdExists c.items u.Id then
        (Except.ok (bytesOf "Item with id " ++ u.Id ++ bytesOf " already exists"),
          created fileName fs)
      else
        (Except.ok [], Function.update fs fileName
          (Node.file ((fs fileName).content ++ (Users.slice (c.items ++ [u])).toBytes))) := by
  have hne : item ≠ [] := by
    intro h
    rw [h, newUserFromBytes_nil] at hitem
    cases hitem
  unfold add
  simp only [hne, if_false, hitem, openFile_eq fileName fs hopen, getUsersFromFile_fresh, hdec]
  split
  · rfl
  · have hdrop : ∀ (x : Bytes) (k : Nat), x.drop (x.length + k) = [] := by
      intro x k
      apply List.drop_eq_nil_of_le
      omega
    simp [File.write, content_created, update_created, hdrop]

/-- What `remove` does once the file is open and its content decodes. -/
theorem remove_eq (id fileName : Bytes) (fs : FS) (c : Users)
    (hopen : Openable fileName fs) (hid : id ≠ [])
    (hdec : usersOfBytes (fs fileName).content = Except.ok c) :
    remove id fileName fs =
      match indexOfId c.items id with
      | none => (Except.ok (bytesOf "Item with id 2 not found"), created fileName fs)
      | some index =>
        (Except.ok [], Function.update fs fileName
          (Node.file (Users.slice (c.items.take index ++ c.items.drop (index + 1))).toBytes)) := by
  unfold remove
  simp only [hid, if_false, openFile_eq fileName fs hopen, getUsersFromFile_fresh, hdec]
  cases indexOfId c.items id with
  | none => rfl
  | some index =>
    simp [File.write, File.seek, File.truncate, File.content, update_created, Node.content]

/-- What `findById` does once the file is open and its content decodes. -/
theorem findById_eq (id fileName : Bytes) (fs : FS) (c : Users)
    (hopen : Openable fileName fs) (hid : id ≠ [])
    (hdec : usersOfBytes (fs fileName).content = Except.ok c) :
    findById fileName id fs =
      match firstWithId c.items id with
      | some user => (Except.ok (marshalUser user), created fileName fs)
      | none => (Except.ok [], created fileName fs) := by
  unfold findById
  simp only [hid, if_false, openFile_eq fileName fs hopen, getUsersFromFile_fresh, hdec]

/-- When `os.OpenFile` fails, `add` returns its error and changes nothing. -/
theorem add_of_open_error (item fileName : Bytes) (fs : FS) (u : User) (e : Err)
    (hitem : newUserFromBytes item = Except.ok u) (hopen : openFile fileName fs = Except.error e) :
    add item fileName fs = (Except.error e, fs) := by
  have hne : item ≠ [] := by
    intro h
    rw [h, newUserFromBytes_nil] at hitem
    cases hitem
  unfold add
  simp only [hne, if_false, hitem, hopen]

/-- When `os.OpenFile` fails, `remove` returns its error and changes nothing. -/
theorem remove_of_open_error (id fileName : Bytes) (fs : FS) (e : Err) (hid : id ≠ [])
    (hopen : openFile fileName fs = Except.error e) :
    remove id fileName fs = (Except.error e, fs) := by
  unfold remove
  simp only [hid, if_false, hopen]

/-- When `os.OpenFile` fails, `findById` returns its error and changes nothing. -/
theorem findById_of_open_error (id fileName : Bytes) (fs : FS) (e : Err) (hid : id ≠ [])
    (hopen : openFile fileName fs = Except.error e) :
    findById fileName id fs = (Except.error e, fs) := by
  unfold findById
  simp only [hid, if_false, hopen]

theorem isIdExists_iff (l : List User) (id : Bytes) :
    isIdExists l id = true ↔ ∃ u ∈ l, u.Id = id := by
  induction l with
  | nil => simp [isIdExists]
  | cons a l ih =>
    unfold isIdExists
    by_cases h : id = a.Id
    · simp [h]
    · have h1 : ¬ a.Id = id := fun e => h e.symm
      simp [h, h1, ih]

theorem indexOfId_none (l : List User) (id : Bytes) (h : ∀ u ∈ l, u.Id ≠ id) :
    indexOfId l id = none := by
  induction l with
  | nil => rfl
  | cons a l ih =>
    have ha : a.Id ≠ id := h a (List.mem_cons_self _ _)
    have hl : ∀ u ∈ l, u.Id ≠ id := fun u hu => h u (List.mem_cons_of_mem _ hu)
    simp [indexOfId, ha, ih hl]

theorem indexOfId_split (pre post : List User) (u : User) (id : Bytes)
    (hu : u.Id = id) (hpre : ∀ v ∈ pre, v.Id ≠ id) :
    indexOfId (pre ++ u :: post) id = some pre.length := by
  induction pre with
  | nil => simp [indexOfId, hu]
  | cons a pre ih =>
    have ha : a.Id ≠ id := hpre a (List.mem_cons_self _ _)
    have hl : ∀ v ∈ pre, v.Id ≠ id := fun v hv => hpre v (List.mem_cons_of_mem _ hv)
    simp [indexOfId, ha, ih hl]

theorem firstWithId_none (l : List User) (id : Bytes) (h : ∀ u ∈ l, u.Id ≠ id) :
    firstWithId l id = none := by
  induction l with
  | nil => rfl
  | cons a l ih =>
    have ha : a.Id ≠ id := h a (List.mem_cons_self _ _)
    have hl : ∀ u ∈ l, u.Id ≠ id := fun u hu => h u (List.mem_cons_of_mem _ hu)
    simp [firstWithId, ha, ih hl]

theorem firstWithId_split (pre post : List User) (u : User) (id : Bytes)
    (hu : u.Id = id) (hpre : ∀ v ∈ pre, v.Id ≠ id) :
    firstWithId (pre ++ u :: post) id = some u := by
  induction pre with
  | nil => simp [firstWithId, hu]
  | cons a pre ih =>
    have ha : a.Id ≠ id := hpre a (List.mem_cons_self _ _)
    have hl : ∀ v ∈ pre, v.Id ≠ id := fun v hv => hpre v (List.mem_cons_of_mem _ hv)
    simp [firstWithId, ha, ih hl]

/-- A list with a record of this id splits at the first such record. -/
theorem exists_first_split (l : List User) (id : Bytes) (h : ∃ u ∈ l, u.Id = id) :
    ∃ pre u post, l = pre ++ u :: post ∧ u.Id = id ∧ ∀ v ∈ pre, v.Id ≠ id := by
  induction l with
  | nil => simp at h
  | cons a l ih =>
    by_cases ha : a.Id = id
    · exact ⟨[], a, l, rfl, ha, by simp⟩
    · have hl : ∃ u ∈ l, u.Id = id := by
        obtain ⟨u, hu, hid⟩ := h
        rcases List.mem_cons.mp hu with e | e
        · exact absurd (e ▸ hid) ha
        · exact ⟨u, e, hid⟩
      obtain ⟨pre, u, post, e, hu, hpre⟩ := ih hl
      refine ⟨a :: pre, u, post, by simp [e], hu, ?_⟩
      intro v hv
      rcases List.mem_cons.mp hv with e1 | e1
      · exact e1 ▸ ha
      · exact hpre v e1

/-! ## UTF-8: decoding and encoding a rune are inverse -/

theorem leadInfo_two (p : Nat) (h : 0xC2 ≤ p ∧ p ≤ 0xDF) : leadInfo p = some (2, 0x80, 0xBF) := by
  simp [leadInfo, h]

theorem leadInfo_three (p : Nat) (h : 0xE0 ≤ p ∧ p ≤ 0xEF) :
    leadInfo p = some (3, if p = 0xE0 then 0xA0 else 0x80, if p = 0xED then 0x9F else 0xBF) := by
  unfold leadInfo
  split_ifs <;> first | rfl | omega

theorem leadInfo_four (p : Nat) (h : 0xF0 ≤ p ∧ p ≤ 0xF4) :
    leadInfo p = some (4, if p = 0xF0 then 0x90 else 0x80, if p = 0xF4 then 0x8F else 0xBF) := by
  unfold leadInfo
  split_ifs <;> first | rfl | omega

theorem leadInfo_none (p : Nat) (h : p < 0xC2 ∨ 0xF4 < p) : leadInfo p = none := by
  unfold leadInfo
  split_ifs <;> first | rfl | omega

theorem decodeRune_encodeRune (r : Nat) (x : Bytes) (hr : ValidRune r) (h80 : 0x80 ≤ r) :
    decodeRune (encodeRune r ++ x) = (r, (encodeRune r).length) ∧ 2 ≤ (encodeRune r).length := by
  unfold ValidRune at hr
  unfold encodeRune
  split
  · omega
  split
  · refine ⟨?_, by simp⟩
    have h1 : ¬ (0xC0 + r / 64 < 0x80) := by omega
    have h3 : ¬ (0x80 + r % 64 < 0x80 ∨ 0xBF < 0x80 + r % 64) := by omega
    simp only [List.cons_append, List.nil_append, decodeRune, h1, if_false,
      leadInfo_two _ (show 0xC2 ≤ 0xC0 + r / 64 ∧ 0xC0 + r / 64 ≤ 0xDF by omega), h3]
    simp
    omega
  split
  · omega
  split
  · refine ⟨?_, by simp⟩
    have h1 : ¬ (0xE0 + r / 4096 < 0x80) := by omega
    have h3 : ¬ (0x80 + r / 64 % 64 < (if 0xE0 + r / 4096 = 0xE0 then 0xA0 else 0x80)
        ∨ (if 0xE0 + r / 4096 = 0xED then 0x9F else 0xBF) < 0x80 + r / 64 % 64) := by
      split_ifs <;> omega
    have h4 : ¬ (0x80 + r % 64 < 0x80 ∨ 0xBF < 0x80 + r % 64) := by omega
    simp only [List.cons_append, List.nil_append, decodeRune, h1, if_false,
      leadInfo_three _ (show 0xE0 ≤ 0xE0 + r / 4096 ∧ 0xE0 + r / 4096 ≤ 0xEF by omega), h3, h4]
    simp
    omega
  · refine ⟨?_, by simp⟩
    have h1 : ¬ (0xF0 + r / 262144 < 0x80) := by omega
    have h3 : ¬ (0x80 + r / 4096 % 64 < (if 0xF0 + r / 262144 = 0xF0 then 0x90 else 0x80)
        ∨ (if 0xF0 + r / 262144 = 0xF4 then 0x8F else 0xBF) < 0x80 + r / 4096 % 64) := by
      split_ifs <;> omega
    have h4 : ¬ (0x80 + r / 64 % 64 < 0x80 ∨ 0xBF < 0x80 + r / 64 % 64) := by omega
    have h5 : ¬ (0x80 + r % 64 < 0x80 ∨ 0xBF < 0x80 + r % 64) := by omega
    simp only [List.cons_append, List.nil_append, decodeRune, h1, if_false,
      leadInfo_four _ (show 0xF0 ≤ 0xF0 + r / 262144 ∧ 0xF0 + r / 262144 ≤ 0xF4 by omega), h3, h4, h5]
    simp
    omega

theorem encodeRune_decodeRune (b : Nat) (t : Bytes) (h80 : 0x80 ≤ b)
    (h2 : 2 ≤ (decodeRune (b :: t)).2) :
    ValidRune (decodeRune (b :: t)).1 ∧ 0x80 ≤ (decodeRune (b :: t)).1 ∧
      (b :: t).take (decodeRune (b :: t)).2 = encodeRune (decodeRune (b :: t)).1 := by
  have h1 : ¬ (b < 0x80) := by omega
  by_cases hnone : b < 0xC2 ∨ 0xF4 < b
  · simp [decodeRune, h1, leadInfo_none b hnone] at h2
  by_cases htwo : 0xC2 ≤ b ∧ b ≤ 0xDF
  · rw [decodeRune] at h2 ⊢
    simp only [h1, if_false, leadInfo_two b htwo] at h2 ⊢
    cases t with
    | nil => simp at h2
    | cons b1 t1 =>
      simp only [] at h2 ⊢
      by_cases hb1 : b1 < 0x80 ∨ 0xBF < b1
      · simp [hb1] at h2
      · simp only [hb1, if_false, le_refl, if_true]
        unfold ValidRune encodeRune
        have e1 : ¬ (b % 32 * 64 + b1 % 64 ≤ 0x7F) := by omega
        have e2 : b % 32 * 64 + b1 % 64 ≤ 0x7FF := by omega
        simp only [e1, e2, if_true, if_false]
        refine ⟨by omega, by omega, ?_⟩
        simp
        omega
  by_cases hthree : 0xE0 ≤ b ∧ b ≤ 0xEF
  · rw [decodeRune] at h2 ⊢
    simp only [h1, if_false, leadInfo_three b hthree] at h2 ⊢
    cases t with
    | nil => simp at h2
    | cons b1 t1 =>
      simp only [] at h2 ⊢
      by_cases hb1 : b1 < (if b = 0xE0 then 0xA0 else 0x80) ∨ (if b = 0xED then 0x9F else 0xBF) < b1
      · simp [hb1] at h2
      · simp only [hb1, if_false, show ¬ (3 ≤ 2) by omega] at h2 ⊢
        cases t1 with
        | nil => simp at h2
        | cons b2 t2 =>
          simp only [] at h2 ⊢
          by_cases hb2 : b2 < 0x80 ∨ 0xBF < b2
          · simp [hb2] at h2
          · simp only [hb2, if_false, le_refl, if_true]
            have hb1a : 0x80 ≤ b1 ∧ b1 ≤ 0xBF ∧ (b = 0xE0 → 0xA0 ≤ b1) ∧ (b = 0xED → b1 ≤ 0x9F) := by
              split_ifs at hb1 <;> omega
            unfold ValidRune encodeRune
            have e1 : ¬ (b % 16 * 4096 + b1 % 64 * 64 + b2 % 64 ≤ 0x7F) := by omega
            have e2 : ¬ (b % 16 * 4096 + b1 % 64 * 64 + b2 % 64 ≤ 0x7FF) := by omega
            have e3 : ¬ (0x10FFFF < b % 16 * 4096 + b1 % 64 * 64 + b2 % 64 ∨
                (0xD800 ≤ b % 16 * 4096 + b1 % 64 * 64 + b2 % 64 ∧
                  b % 16 * 4096 + b1 % 64 * 64 + b2 % 64 ≤ 0xDFFF)) := by omega
            have e4 : b % 16 * 4096 + b1 % 64 * 64 + b2 % 64 ≤ 0xFFFF := by omega
            simp only [e1, e2, e3, e4, if_true, if_false]
            refine ⟨by omega, by omega, ?_⟩
            simp
            omega
  · have hfour : 0xF0 ≤ b ∧ b ≤ 0xF4 := by omega
    rw [decodeRune] at h2 ⊢
    simp only [h1, if_false, leadInfo_four b hfour] at h2 ⊢
    cases t with
    | nil => simp at h2
    | cons b1 t1 =>
      simp only [] at h2 ⊢
      by_cases hb1 : b1 < (if b = 0xF0 then 0x90 else 0x80) ∨ (if b = 0xF4 then 0x8F else 0xBF) < b1
      · simp [hb1] at h2
      · simp only [hb1, if_false, show ¬ (4 ≤ 2) by omega] at h2 ⊢
        cases t1 with
        | nil => simp at h2
        | cons b2 t2 =>
          simp only [] at h2 ⊢
          by_cases hb2 : b2 < 0x80 ∨ 0xBF < b2
          · simp [hb2] at h2
          · simp only [hb2, if_false, show ¬ (4 ≤ 3) by omega] at h2 ⊢
            cases t2 with
            | nil => simp at h2
            | cons b3 t3 =>
              simp only [] at h2 ⊢
              by_cases hb3 : b3 < 0x80 ∨ 0xBF < b3
              · simp [hb3] at h2
              · simp only [hb3, if_false]
                have hb1a : 0x80 ≤ b1 ∧ b1 ≤ 0xBF ∧ (b = 0xF0 → 0x90 ≤ b1) ∧ (b = 0xF4 → b1 ≤ 0x8F) := by
                  split_ifs at hb1 <;> omega
                unfold ValidRune encodeRune
                have e1 : ¬ (b % 8 * 262144 + b1 % 64 * 4096 + b2 % 64 * 64 + b3 % 64 ≤ 0x7F) := by omega
                have e2 : ¬ (b % 8 * 262144 + b1 % 64 * 4096 + b2 % 64 * 64 + b3 % 64 ≤ 0x7FF) := by omega
                have e3 : ¬ (0x10FFFF < b % 8 * 262144 + b1 % 64 * 4096 + b2 % 64 * 64 + b3 % 64 ∨
                    (0xD800 ≤ b % 8 * 262144 + b1 % 64 * 4096 + b2 % 64 * 64 + b3 % 64 ∧
                      b % 8 * 262144 + b1 % 64 * 4096 + b2 % 64 * 64 + b3 % 64 ≤ 0xDFFF)) := by omega
                have e4 : ¬ (b % 8 * 262144 + b1 % 64 * 4096 + b2 % 64 * 64 + b3 % 64 ≤ 0xFFFF) := by omega
                simp only [e1, e2, e3, e4, if_true, if_false]
                refine ⟨by omega, by omega, ?_⟩
                simp
                omega

/-! ## Strings: `appendString` and the scanner -/

theorem decodeRune_size_pos (b : Nat) (t : Bytes) : 1 ≤ (decodeRune (b :: t)).2 := by
  rw [decodeRune]
  repeat' split
  all_goals simp

theorem validUTF8Aux_fuel (n m : Nat) (s : Bytes) (hn : s.length ≤ n) (hm : s.length ≤ m) :
    validUTF8Aux n s = validUTF8Aux m s := by
  induction n generalizing m s with
  | zero =>
    cases s with
    | nil => cases m <;> rfl
    | cons b rest => simp at hn
  | succ n ih =>
    cases s with
    | nil => cases m <;> rfl
    | cons b rest =>
      cases m with
      | zero => simp at hm
      | succ m =>
        simp only [List.length_cons, Nat.add_le_add_iff_right] at hn hm
        simp only [validUTF8Aux]
        split
        · exact ih m rest hn hm
        · split
          · rfl
          · apply ih
            · simp only [List.length_drop, List.length_cons]; omega
            · simp only [List.length_drop, List.length_cons]; omega

theorem validUTF8_nil : validUTF8 [] = true := rfl

theorem validUTF8_ascii (b : Nat) (t : Bytes) (hb : b < 0x80) :
    validUTF8 (b :: t) = validUTF8 t := by
  simp only [validUTF8, List.length_cons, validUTF8Aux, hb, if_true]

theorem validUTF8_multi (b : Nat) (t : Bytes) (hb : 0x80 ≤ b) :
    validUTF8 (b :: t) =
      if (decodeRune (b :: t)).2 ≤ 1 then false
      else validUTF8 ((b :: t).drop (decodeRune (b :: t)).2) := by
  have h1 : ¬ (b < 0x80) := by omega
  simp only [validUTF8, List.length_cons, validUTF8Aux, h1, if_false]
  split
  · rfl
  · apply validUTF8Aux_fuel
    · simp only [List.length_drop, List.length_cons]; omega
    · exact le_refl _

theorem quoteBody_fuel (n m : Nat) (s : Bytes) (hn : s.length ≤ n) (hm : s.length ≤ m) :
    quoteBody n s = quoteBody m s := by
  induction n generalizing m s with
  | zero =>
    cases s with
    | nil => cases m <;> rfl
    | cons b rest => simp at hn
  | succ n ih =>
    cases s with
    | nil => cases m <;> rfl
    | cons b rest =>
      cases m with
      | zero => simp at hm
      | succ m =>
        simp only [List.length_cons, Nat.add_le_add_iff_right] at hn hm
        have e1 := ih m rest hn hm
        have e2 : quoteBody n ((b :: rest).drop (decodeRune (b :: rest)).2)
            = quoteBody m ((b :: rest).drop (decodeRune (b :: rest)).2) := by
          have hz := decodeRune_size_pos b rest
          apply ih
          · simp only [List.length_drop, List.length_cons]; omega
          · simp only [List.length_drop, List.length_cons]; omega
        simp only [quoteBody, e1, e2]

theorem quoteBody_nil (n : Nat) : quoteBody n [] = [] := by
  cases n <;> rfl

theorem quoteBody_cons (b : Nat) (t : Bytes) :
    quoteBody (b :: t).length (b :: t) =
      if b < 0x80 then
        if htmlSafe b then b :: quoteBody t.length t
        else escapeByte b ++ quoteBody t.length t
      else
        if (decodeRune (b :: t)).1 = RuneError ∧ (decodeRune (b :: t)).2 = 1 then
          bytesOf "\\ufffd" ++ quoteBody t.length t
        else if (decodeRune (b :: t)).1 = 0x2028 ∨ (decodeRune (b :: t)).1 = 0x2029 then
          bytesOf "\\u202" ++ hexDigit ((decodeRune (b :: t)).1 % 16) ::
            quoteBody ((b :: t).drop (decodeRune (b :: t)).2).length
              ((b :: t).drop (decodeRune (b :: t)).2)
        else
          (b :: t).take (decodeRune (b :: t)).2 ++
            quoteBody ((b :: t).drop (decodeRune (b :: t)).2).length
              ((b :: t).drop (decodeRune (b :: t)).2) := by
  have hz := decodeRune_size_pos b t
  have e : quoteBody t.length ((b :: t).drop (decodeRune (b :: t)).2)
      = quoteBody ((b :: t).drop (decodeRune (b :: t)).2).length
          ((b :: t).drop (decodeRune (b :: t)).2) := by
    apply quoteBody_fuel
    · simp only [List.length_drop, List.length_cons]; omega
    · exact le_refl _
  simp only [List.length_cons, quoteBody, e]

theorem prepend_some (p t r : Bytes) : prepend p (some (t, r)) = some (p ++ t, r) := rfl

theorem scanString_escapeByte (b f : Nat) (x : Bytes) (hb : b < 0x80) (hs : htmlSafe b = false) :
    scanString (f + 1) (escapeByte b ++ x) = prepend [b] (scanString f x) := by
  interval_cases b <;> first
    | (exfalso; revert hs; decide)
    | (simp [escapeByte, scanString, unescape, hexDigit, getu4, hexVal, isSurrogate, encodeRune])

theorem scanString_cons (f c : Nat) (rest : Bytes) :
    scanString (f + 1) (c :: rest) =
      if c = 0x22 then some ([], rest)
      else if c = 0x5C then
        match rest with
        | [] => none
        | e :: rest1 =>
          if e = 0x75 then
            match getu4 (c :: rest) with
            | none => none
            | some rr =>
              if isSurrogate rr then
                let dec := match getu4 (rest1.drop 4) with
                  | some rr1 => utf16DecodeRune rr rr1
                  | none => RuneError
                if dec ≠ RuneError then prepend (encodeRune dec) (scanString f (rest1.drop 10))
                else prepend (encodeRune RuneError) (scanString f (rest1.drop 4))
              else prepend (encodeRune rr) (scanString f (rest1.drop 4))
          else
            match unescape e with
            | some b => prepend [b] (scanString f rest1)
            | none => none
      else if c < 0x20 then none
      else if c < 0x80 then prepend [c] (scanString f rest)
      else
        prepend (encodeRune (decodeRune (c :: rest)).1)
          (scanString f ((c :: rest).drop (decodeRune (c :: rest)).2)) := by
  rfl

theorem escapeByte_length (b : Nat) : 2 ≤ (escapeByte b).length := by
  unfold escapeByte
  split_ifs <;> simp

theorem htmlSafe_bounds (b : Nat) (h : htmlSafe b = true) :
    0x20 ≤ b ∧ b < 0x80 ∧ b ≠ 0x22 ∧ b ≠ 0x5C := by
  simp [htmlSafe] at h
  omega

theorem scanString_multi (b f : Nat) (t x : Bytes) (h80 : 0x80 ≤ b)
    (h2 : 2 ≤ (decodeRune (b :: t)).2) :
    scanString (f + 1) ((b :: t).take (decodeRune (b :: t)).2 ++ x)
      = prepend ((b :: t).take (decodeRune (b :: t)).2) (scanString f x) := by
  obtain ⟨hv, hr80, htake⟩ := encodeRune_decodeRune b t h80 h2
  obtain ⟨hdec, _⟩ := decodeRune_encodeRune _ x hv hr80
  have hhead : ∃ e, (b :: t).take (decodeRune (b :: t)).2 = b :: e := by
    obtain ⟨k, hk⟩ : ∃ k, (decodeRune (b :: t)).2 = k + 1 := ⟨(decodeRune (b :: t)).2 - 1, by omega⟩
    rw [hk]
    exact ⟨_, List.take_succ_cons⟩
  obtain ⟨e, he⟩ := hhead
  rw [← htake, he] at hdec
  rw [he, List.cons_append, scanString_cons]
  have c1 : ¬ (b = 0x22) := by omega
  have c2 : ¬ (b = 0x5C) := by omega
  have c3 : ¬ (b < 0x20) := by omega
  have c4 : ¬ (b < 0x80) := by omega
  simp only [c1, c2, c3, c4, if_false]
  rw [← List.cons_append, hdec, ← he, htake]
  simp

theorem scanString_sep (b f : Nat) (t x : Bytes)
    (hsep : (decodeRune (b :: t)).1 = 0x2028 ∨ (decodeRune (b :: t)).1 = 0x2029) :
    scanString (f + 1) (bytesOf "\\u202" ++ hexDigit ((decodeRune (b :: t)).1 % 16) :: x)
      = prepend (encodeRune (decodeRune (b :: t)).1) (scanString f x) := by
  have e : bytesOf "\\u202" = [0x5C, 0x75, 0x32, 0x30, 0x32] := by decide
  rcases hsep with h | h <;> rw [h, e] <;>
    simp [scanString, hexDigit, getu4, hexVal, isSurrogate]

theorem scanString_quoteBody (s rest : Bytes) (hv : validUTF8 s = true) (fuel : Nat)
    (hf : (quoteBody s.length s).length < fuel) :
    scanString fuel (quoteBody s.length s ++ 0x22 :: rest) = some (s, rest) := by
  match s, fuel with
  | _, 0 => omega
  | [], f + 1 => simp [quoteBody_nil, scanString]
  | b :: t, f + 1 =>
    rw [quoteBody_cons] at hf ⊢
    by_cases hb : b < 0x80
    · rw [validUTF8_ascii b t hb] at hv
      simp only [hb, if_true] at hf ⊢
      by_cases hs : htmlSafe b = true
      · simp only [hs, if_true, List.length_cons] at hf ⊢
        obtain ⟨c1, _, c3, c4⟩ := htmlSafe_bounds b hs
        have c1a : ¬ (b < 0x20) := by omega
        rw [List.cons_append, scanString_cons]
        simp only [c3, c4, c1a, hb, if_true, if_false]
        rw [scanString_quoteBody t rest hv f (by omega)]
        rfl
      · have hs1 : htmlSafe b = false := by simpa using hs
        simp only [hs1, Bool.false_eq_true, if_false, List.length_append] at hf ⊢
        have hlen := escapeByte_length b
        rw [List.append_assoc, scanString_escapeByte b f _ hb hs1,
          scanString_quoteBody t rest hv f (by omega)]
        rfl
    · have h80 : 0x80 ≤ b := by omega
      rw [validUTF8_multi b t h80] at hv
      have h2 : 2 ≤ (decodeRune (b :: t)).2 := by
        by_contra hc
        simp [show (decodeRune (b :: t)).2 ≤ 1 by omega] at hv
      have hv1 : validUTF8 ((b :: t).drop (decodeRune (b :: t)).2) = true := by
        simpa [show ¬ ((decodeRune (b :: t)).2 ≤ 1) by omega] using hv
      have herr : ¬ ((decodeRune (b :: t)).1 = RuneError ∧ (decodeRune (b :: t)).2 = 1) := by omega
      obtain ⟨_, _, htake⟩ := encodeRune_decodeRune b t h80 h2
      have hlen : ((b :: t).drop (decodeRune (b :: t)).2).length < (b :: t).length := by
        simp only [List.length_drop, List.length_cons]; omega
      simp only [hb, herr, if_false] at hf ⊢
      by_cases hsep : (decodeRune (b :: t)).1 = 0x2028 ∨ (decodeRune (b :: t)).1 = 0x2029
      · simp only [hsep, if_true, List.length_append, List.length_cons] at hf ⊢
        rw [List.append_assoc, List.cons_append, scanString_sep b f t _ hsep,
          scanString_quoteBody _ rest hv1 f (by omega), prepend_some, ← htake,
          List.take_append_drop]
      · simp only [hsep, if_false, List.length_append, List.length_take, List.length_cons] at hf ⊢
        rw [List.append_assoc, scanString_multi b f t _ h80 h2,
          scanString_quoteBody _ rest hv1 f (by omega), prepend_some, List.take_append_drop]
termination_by s.length

/-! ## Numbers: `strconv.AppendInt`, the scanner and `strconv.ParseInt` -/

theorem decDigits_spec (f n : Nat) (h : n < f) :
    ∃ d ds, decDigits f n = d :: ds ∧ ds.all isDigit = true ∧
      (if n = 0 then d = 0x30 ∧ ds = [] else 0x31 ≤ d ∧ d ≤ 0x39) ∧
      digitsValue (d :: ds) = n := by
  induction f generalizing n with
  | zero => omega
  | succ f ih =>
    rw [decDigits]
    by_cases h10 : n < 10
    · refine ⟨48 + n, [], by simp [h10], by simp, ?_, ?_⟩
      · split_ifs with h0
        · simp [h0]
        · omega
      · simp [digitsValue]
    · obtain ⟨d, ds, e, hall, hd, hval⟩ := ih (n / 10) (by omega)
      have hne : ¬ (n / 10 = 0) := by omega
      simp only [hne, if_false] at hd
      refine ⟨d, ds ++ [48 + n % 10], by simp [h10, e], ?_, ?_, ?_⟩
      · simp only [List.all_append, hall, Bool.true_and]
        simp [isDigit]
        omega
      · have : ¬ (n = 0) := by omega
        simp only [this, if_false]
        exact hd
      · have e2 : d :: (ds ++ [48 + n % 10]) = (d :: ds) ++ [48 + n % 10] := rfl
        rw [e2]
        unfold digitsValue at hval ⊢
        rw [List.foldl_append, hval]
        simp
        omega

theorem takeDigits_append (ds rest : Bytes) (hall : ds.all isDigit = true)
    (hrest : takeDigits rest = ([], rest)) : takeDigits (ds ++ rest) = (ds, rest) := by
  induction ds with
  | nil => simpa using hrest
  | cons d ds ih =>
    simp only [List.all_cons, Bool.and_eq_true] at hall
    simp [takeDigits, hall.1, ih hall.2]

theorem takeDigits_brace (rest : Bytes) : takeDigits (0x7D :: rest) = ([], 0x7D :: rest) := by
  simp [takeDigits, isDigit]

theorem scanNumber_formatInt (v : Int) (rest : Bytes) :
    scanNumber (formatInt v ++ 0x7D :: rest) = some (formatInt v, 0x7D :: rest) := by
  obtain ⟨d, ds, e, hall, hd, _⟩ := decDigits_spec (v.natAbs + 1) v.natAbs (by omega)
  have hint : scanIntPart (d :: ds ++ 0x7D :: rest) = some (d :: ds, 0x7D :: rest) := by
    rw [List.cons_append, scanIntPart]
    split_ifs at hd with h0
    · obtain ⟨h1, h2⟩ := hd
      simp [h1, h2]
    · have c1 : ¬ (d = 0x30) := by omega
      simp only [c1, if_false, hd, and_self, if_true,
        takeDigits_append ds _ hall (takeDigits_brace rest)]
  have hd2 : ¬ (d = 0x2D) := by split_ifs at hd <;> omega
  unfold formatInt
  rw [e]
  split
  · simp only [scanNumber, List.cons_append, if_true, List.length_singleton, List.drop_succ_cons,
      List.drop_zero]
    rw [← List.cons_append, hint]
    simp [scanFrac, scanExp]
  · simp only [scanNumber, List.cons_append, hd2, if_false, List.length_nil, List.drop_zero]
    rw [← List.cons_append, hint]
    simp [scanFrac, scanExp]

theorem formatInt_head (v : Int) :
    ∃ c cs, formatInt v = c :: cs ∧ (c = 0x2D ∨ (0x30 ≤ c ∧ c ≤ 0x39)) := by
  obtain ⟨d, ds, e, _, hd, _⟩ := decDigits_spec (v.natAbs + 1) v.natAbs (by omega)
  unfold formatInt
  rw [e]
  split
  · exact ⟨0x2D, d :: ds, rfl, Or.inl rfl⟩
  · refine ⟨d, ds, rfl, Or.inr ?_⟩
    split_ifs at hd <;> omega

theorem parseInt_formatInt (v : Int) (hlo : -(2 : Int) ^ 63 ≤ v) (hhi : v < (2 : Int) ^ 63) :
    parseInt (formatInt v) = some v := by
  obtain ⟨d, ds, e, hall, hd, hval⟩ := decDigits_spec (v.natAbs + 1) v.natAbs (by omega)
  have hdig : isDigit d = true := by
    simp only [isDigit, Bool.and_eq_true, decide_eq_true_eq]
    split_ifs at hd <;> omega
  have hu : parseUint (d :: ds) = some v.natAbs := by
    unfold parseUint
    simp only [List.cons_ne_nil, if_false, List.all_cons, hdig, hall, Bool.and_self, if_true]
    exact congrArg some hval
  have hd2 : ¬ (d = 0x2D) ∧ ¬ (d = 0x2B) := by split_ifs at hd <;> omega
  unfold formatInt
  rw [e]
  split
  · rename_i hneg
    simp only [parseInt, or_true, if_true, hu]
    have : ¬ (2 ^ 63 < v.natAbs) := by omega
    simp only [this, if_false]
    congr 1
    omega
  · rename_i hneg
    simp only [parseInt, hd2.1, hd2.2, or_self, if_false, hu]
    have : ¬ (2 ^ 63 ≤ v.natAbs) := by omega
    simp only [this, if_false]
    congr 1
    omega

/-! ## Records and collections: `json.Marshal` read back by the scanner -/

theorem skipSpace_cons (c : Nat) (r : Bytes) (h : isSpace c = false) :
    skipSpace (c :: r) = c :: r := by
  simp [skipSpace, h]

theorem parseValue_succ (f d : Nat) (s : Bytes) :
    parseValue (f + 1) d s =
      match skipSpace s with
      | [] => none
      | c :: r =>
        if c = 0x7B then
          if maxNestingDepth < d + 1 then none
          else
            match skipSpace r with
            | [] => none
            | c1 :: r1 =>
              if c1 = 0x7D then some (JValue.obj [], r1)
              else (parseMembers f (d + 1) r).map (fun x => (JValue.obj x.1, x.2))
        else if c = 0x5B then
          if maxNestingDepth < d + 1 then none
          else
            match skipSpace r with
            | [] => none
            | c1 :: r1 =>
              if c1 = 0x5D then some (JValue.arr [], r1)
              else (parseElems f (d + 1) r).map (fun x => (JValue.arr x.1, x.2))
        else if c = 0x22 then (scanString (r.length + 1) r).map (fun x => (JValue.str x.1, x.2))
        else if c = 0x2D ∨ isDigit c then (scanNumber (c :: r)).map (fun x => (JValue.num x.1, x.2))
        else if c = 0x74 then (stripLit (bytesOf "true") (c :: r)).map (fun x => (JValue.bool true, x))
        else if c = 0x66 then (stripLit (bytesOf "false") (c :: r)).map (fun x => (JValue.bool false, x))
        else if c = 0x6E then (stripLit (bytesOf "null") (c :: r)).map (fun x => (JValue.null, x))
        else none := by
  rfl

theorem parseElems_succ (f d : Nat) (s : Bytes) :
    parseElems (f + 1) d s =
      match parseValue f d s with
      | none => none
      | some (v, r) =>
        match skipSpace r with
        | [] => none
        | c :: r1 =>
          if c = 0x2C then (parseElems f d r1).map (fun x => (v :: x.1, x.2))
          else if c = 0x5D then some ([v], r1)
          else none := by
  rfl

theorem parseMembers_succ (f d : Nat) (s : Bytes) :
    parseMembers (f + 1) d s =
      match skipSpace s with
      | [] => none
      | q :: r =>
        if q = 0x22 then
          match scanString (r.length + 1) r with
          | none => none
          | some (k, r1) =>
            match skipSpace r1 with
            | [] => none
            | c :: r2 =>
              if c = 0x3A then
                match parseValue f d r2 with
                | none => none
                | some (v, r3) =>
                  match skipSpace r3 with
                  | [] => none
                  | c1 :: r4 =>
                    if c1 = 0x2C then (parseMembers f d r4).map (fun x => ((k, v) :: x.1, x.2))
                    else if c1 = 0x7D then some ([(k, v)], r4)
                    else none
              else none
        else none := by
  rfl

theorem parseValue_appendString (f d : Nat) (s rest : Bytes) (hv : validUTF8 s = true) :
    parseValue (f + 1) d (appendString s ++ rest) = some (JValue.str s, rest) := by
  have e : appendString s ++ rest = 0x22 :: (quoteBody s.length s ++ 0x22 :: rest) := by
    simp [appendString]
  rw [e, parseValue_succ, skipSpace_cons _ _ (by decide)]
  simp only [show ¬ ((0x22 : Nat) = 0x7B) by decide, show ¬ ((0x22 : Nat) = 0x5B) by decide,
    if_false, if_true]
  rw [scanString_quoteBody s rest hv _ (by simp only [List.length_append, List.length_cons]; omega)]
  rfl

theorem parseValue_formatInt (f d : Nat) (v : Int) (rest : Bytes) :
    parseValue (f + 1) d (formatInt v ++ 0x7D :: rest)
      = some (JValue.num (formatInt v), 0x7D :: rest) := by
  have hn := scanNumber_formatInt v rest
  obtain ⟨c, cs, e, hc⟩ := formatInt_head v
  rw [e] at hn ⊢
  have hsp : isSpace c = false := by
    simp only [isSpace, Bool.or_eq_false_iff, decide_eq_false_iff_not]
    omega
  have c1 : ¬ (c = 0x7B) := by omega
  have c2 : ¬ (c = 0x5B) := by omega
  have c3 : ¬ (c = 0x22) := by omega
  have c4 : c = 0x2D ∨ isDigit c = true := by
    rcases hc with h | h
    · exact Or.inl h
    · right
      simp only [isDigit, Bool.and_eq_true, decide_eq_true_eq]
      exact h
  rw [List.cons_append, parseValue_succ, skipSpace_cons _ _ hsp]
  simp only [c1, c2, c3, c4, if_false, if_true]
  rw [← List.cons_append, hn]
  rfl

/-- A key `appendString` leaves as it is reads back as itself. -/
theorem scanString_key (k rest : Bytes) (n : Nat) (hv : validUTF8 k = true)
    (hq : quoteBody k.length k = k) (hn : k.length < n) :
    scanString n (k ++ 0x22 :: rest) = some (k, rest) := by
  have h := scanString_quoteBody k rest hv n (by rw [hq]; exact hn)
  rw [hq] at h
  exact h

theorem parseMembers_string (f d : Nat) (k s rest : Bytes) (hk : validUTF8 k = true)
    (hq : quoteBody k.length k = k) (hv : validUTF8 s = true) :
    parseMembers (f + 2) d (0x22 :: (k ++ 0x22 :: 0x3A :: (appendString s ++ 0x2C :: rest)))
      = (parseMembers (f + 1) d rest).map (fun x => ((k, JValue.str s) :: x.1, x.2)) := by
  rw [parseMembers_succ, skipSpace_cons _ _ (by decide)]
  simp only [if_true]
  rw [scanString_key k _ _ hk hq (by simp only [List.length_append, List.length_cons]; omega)]
  simp only [skipSpace_cons _ _ (show isSpace 0x3A = false by decide), if_true]
  rw [parseValue_appendString f d s _ hv]
  simp only [skipSpace_cons _ _ (show isSpace 0x2C = false by decide), if_true]

theorem parseMembers_int (f d : Nat) (k rest : Bytes) (v : Int) (hk : validUTF8 k = true)
    (hq : quoteBody k.length k = k) :
    parseMembers (f + 2) d (0x22 :: (k ++ 0x22 :: 0x3A :: (formatInt v ++ 0x7D :: rest)))
      = some ([(k, JValue.num (formatInt v))], rest) := by
  rw [parseMembers_succ, skipSpace_cons _ _ (by decide)]
  simp only [if_true]
  rw [scanString_key k _ _ hk hq (by simp only [List.length_append, List.length_cons]; omega)]
  simp only [skipSpace_cons _ _ (show isSpace 0x3A = false by decide), if_true]
  rw [parseValue_formatInt f d v rest]
  simp only [skipSpace_cons _ _ (show isSpace 0x7D = false by decide), if_true,
    show ¬ ((0x7D : Nat) = 0x2C) by decide, if_false]

theorem marshalUser_eq (u : User) (rest : Bytes) :
    marshalUser u ++ rest = 0x7B :: 0x22 :: (bytesOf "id" ++ 0x22 :: 0x3A :: (appendString u.Id ++
      0x2C :: 0x22 :: (bytesOf "email" ++ 0x22 :: 0x3A :: (appendString u.Email ++
      0x2C :: 0x22 :: (bytesOf "age" ++ 0x22 :: 0x3A :: (formatInt u.Age ++ 0x7D :: rest)))))) := by
  have e1 : bytesOf "\x7b\"id\":" = [0x7B, 0x22, 0x69, 0x64, 0x22, 0x3A] := by decide
  have e2 : bytesOf ",\"email\":" = [0x2C, 0x22, 0x65, 0x6D, 0x61, 0x69, 0x6C, 0x22, 0x3A] := by decide
  have e3 : bytesOf ",\"age\":" = [0x2C, 0x22, 0x61, 0x67, 0x65, 0x22, 0x3A] := by decide
  have e4 : bytesOf "\x7d" = [0x7D] := by decide
  have e5 : bytesOf "id" = [0x69, 0x64] := by decide
  have e6 : bytesOf "email" = [0x65, 0x6D, 0x61, 0x69, 0x6C] := by decide
  have e7 : bytesOf "age" = [0x61, 0x67, 0x65] := by decide
  rw [marshalUser, e1, e2, e3, e4, e5, e6, e7]
  simp only [List.append_assoc, List.cons_append, List.nil_append]

theorem parseValue_marshalUser (f d : Nat) (u : User) (rest : Bytes) (hu : u.WellFormed)
    (hd : d + 1 ≤ maxNestingDepth) :
    parseValue (f + 5) d (marshalUser u ++ rest) = some (userValue u, rest) := by
  obtain ⟨h1, h2, _, _⟩ := hu
  rw [marshalUser_eq, parseValue_succ, skipSpace_cons _ _ (by decide)]
  simp only [if_true, show ¬ (maxNestingDepth < d + 1) by omega, if_false,
    skipSpace_cons _ _ (show isSpace 0x22 = false by decide),
    show ¬ ((0x22 : Nat) = 0x7D) by decide]
  rw [parseMembers_string (f + 2) (d + 1) _ _ _ (by decide) (by decide) h1,
    parseMembers_string (f + 1) (d + 1) _ _ _ (by decide) (by decide) h2,
    parseMembers_int f (d + 1) _ _ _ (by decide) (by decide)]
  rfl

theorem decodeUser_userValue (u : User) (hu : u.WellFormed) :
    decodeUser (userValue u) = Except.ok u := by
  obtain ⟨_, _, h3, h4⟩ := hu
  have k1 : keyIs (bytesOf "id") "id" = true := by decide
  have k2 : keyIs (bytesOf "email") "id" = false := by decide
  have k3 : keyIs (bytesOf "email") "email" = true := by decide
  have k4 : keyIs (bytesOf "age") "id" = false := by decide
  have k5 : keyIs (bytesOf "age") "email" = false := by decide
  have k6 : keyIs (bytesOf "age") "age" = true := by decide
  simp only [userValue, decodeUser, storeMembers, storeField, k1, k2, k3, k4, k5, k6, if_true,
    Bool.false_eq_true, if_false, parseInt_formatInt u.Age h3 h4]

theorem marshalUser_head (u : User) : ∃ t, marshalUser u = 0x7B :: t := by
  have h := marshalUser_eq u []
  rw [List.append_nil] at h
  exact ⟨_, h⟩

theorem marshalElems_head (u : User) (us : List User) :
    ∃ t, marshalElems (u :: us) = 0x7B :: t := by
  obtain ⟨t, ht⟩ := marshalUser_head u
  cases us with
  | nil => exact ⟨t, by rw [marshalElems, ht]⟩
  | cons v us => exact ⟨t ++ 0x2C :: marshalElems (v :: us), by rw [marshalElems, ht]; rfl⟩

theorem marshalElems_length (us : List User) : us.length ≤ (marshalElems us).length := by
  match us with
  | [] => simp
  | [u] =>
    obtain ⟨t, ht⟩ := marshalUser_head u
    simp [marshalElems, ht]
  | u :: v :: us =>
    have ih := marshalElems_length (v :: us)
    simp only [marshalElems, List.length_append, List.length_cons] at ih ⊢
    omega

theorem parseElems_marshalElems (u : User) (us : List User) (f d : Nat) (rest : Bytes)
    (hwf : ∀ x ∈ u :: us, x.WellFormed) (hd : d + 1 ≤ maxNestingDepth) :
    parseElems (f + us.length + 6) d (marshalElems (u :: us) ++ 0x5D :: rest)
      = some ((u :: us).map userValue, rest) := by
  induction us generalizing u f with
  | nil =>
    have hu := hwf u (List.mem_cons_self _ _)
    rw [marshalElems, List.length_nil, Nat.add_zero, parseElems_succ,
      parseValue_marshalUser f d u _ hu hd]
    simp only [skipSpace_cons _ _ (show isSpace 0x5D = false by decide),
      show ¬ ((0x5D : Nat) = 0x2C) by decide, if_false, if_true]
    rfl
  | cons v us ih =>
    have hu := hwf u (List.mem_cons_self _ _)
    have hrest : ∀ x ∈ v :: us, x.WellFormed := fun x hx => hwf x (List.mem_cons_of_mem _ hx)
    have e : f + (v :: us).length + 6 = (f + us.length + 1 + 5) + 1 := by
      simp only [List.length_cons]; omega
    rw [marshalElems, List.append_assoc, e, parseElems_succ,
      parseValue_marshalUser _ d u _ hu hd]
    simp only [List.cons_append, skipSpace_cons _ _ (show isSpace 0x2C = false by decide), if_true]
    have e2 : f + us.length + 1 + 5 = f + us.length + 6 := by omega
    rw [e2, ih v f hrest]
    rfl

theorem decodeElems_userValue (us : List User) (hwf : ∀ x ∈ us, x.WellFormed) :
    decodeElems (us.map userValue) = Except.ok us := by
  induction us with
  | nil => rfl
  | cons u us ih =>
    have hu := hwf u (List.mem_cons_self _ _)
    have hrest : ∀ x ∈ us, x.WellFormed := fun x hx => hwf x (List.mem_cons_of_mem _ hx)
    simp only [List.map_cons, decodeElems, decodeUser_userValue u hu, ih hrest]

/-- Decoding inverts encoding on well-formed collections. -/
theorem newUsersFromBytes_toBytes (c : Users) (hwf : c.WellFormed) :
    newUsersFromBytes c.toBytes = Except.ok c := by
  cases c with
  | nil => decide
  | slice l =>
    cases l with
    | nil => decide
    | cons u us =>
      have hw : ∀ x ∈ u :: us, x.WellFormed := hwf
      obtain ⟨t, ht⟩ := marshalElems_head u us
      have hlen := marshalElems_length (u :: us)
      have hfuel : ∃ f, 2 * (Users.slice (u :: us)).toBytes.length + 2 = (f + us.length + 6) + 1 := by
        refine ⟨2 * (Users.slice (u :: us)).toBytes.length + 2 - us.length - 7, ?_⟩
        simp only [Users.toBytes, List.length_cons, List.length_append, List.length_nil] at hlen ⊢
        omega
      obtain ⟨f, hf⟩ := hfuel
      have hp := parseElems_marshalElems u us f 1 [] hw (by decide)
      unfold newUsersFromBytes parseJSON
      rw [hf]
      simp only [Users.toBytes, List.cons_append]
      rw [parseValue_succ, skipSpace_cons _ _ (by decide)]
      simp only [show ¬ ((0x5B : Nat) = 0x7B) by decide, if_false, if_true,
        show ¬ (maxNestingDepth < 0 + 1) by decide]
      rw [ht, List.cons_append, skipSpace_cons _ _ (by decide)]
      simp only [show ¬ ((0x7B : Nat) = 0x5D) by decide, if_false]
      rw [← List.cons_append, ← ht, hp]
      simp only [Option.map_some', skipSpace, if_true, decodeUsers, decodeElems_userValue _ hw]

/-! ## What the decoder returns is well formed -/

theorem encodeRune_head (r : Nat) (h80 : 0x80 ≤ r) :
    ∃ b e, encodeRune r = b :: e ∧ 0x80 ≤ b := by
  unfold encodeRune
  split_ifs
  · omega
  · exact ⟨_, _, rfl, by omega⟩
  · exact ⟨_, _, rfl, by omega⟩
  · exact ⟨_, _, rfl, by omega⟩
  · exact ⟨_, _, rfl, by omega⟩

theorem encodeRune_cases (r : Nat) :
    (r < 0x80 ∧ encodeRune r = [r]) ∨
      ∃ r1, ValidRune r1 ∧ 0x80 ≤ r1 ∧ encodeRune r = encodeRune r1 := by
  by_cases h : r < 0x80
  · left
    exact ⟨h, by simp [encodeRune, show r ≤ 0x7F by omega]⟩
  · right
    by_cases hv : ValidRune r
    · exact ⟨r, hv, by omega, rfl⟩
    · refine ⟨0xFFFD, by unfold ValidRune; omega, by omega, ?_⟩
      unfold ValidRune at hv
      unfold encodeRune
      have c1 : ¬ (r ≤ 0x7F) := by omega
      have c2 : ¬ (r ≤ 0x7FF) := by omega
      have c3 : 0x10FFFF < r ∨ (0xD800 ≤ r ∧ r ≤ 0xDFFF) := by omega
      simp [c1, c2, c3]

theorem validUTF8_encodeRune_append (r : Nat) (t : Bytes) (ht : validUTF8 t = true) :
    validUTF8 (encodeRune r ++ t) = true := by
  rcases encodeRune_cases r with ⟨h, e⟩ | ⟨r1, hv, h80, e⟩
  · rw [e, List.singleton_append, validUTF8_ascii r t h]
    exact ht
  · rw [e]
    obtain ⟨hdec, hlen⟩ := decodeRune_encodeRune r1 t hv h80
    obtain ⟨b, x, hbx, hb⟩ := encodeRune_head r1 h80
    rw [hbx, List.cons_append] at hdec ⊢
    rw [validUTF8_multi b _ hb, hdec, ← List.cons_append, ← hbx, List.drop_left]
    have hn : ¬ ((encodeRune r1).length ≤ 1) := by omega
    rw [if_neg hn]
    exact ht

theorem validUTF8_ascii_append (b : Nat) (t : Bytes) (hb : b < 0x80) (ht : validUTF8 t = true) :
    validUTF8 ([b] ++ t) = true := by
  rw [List.singleton_append, validUTF8_ascii b t hb]
  exact ht

theorem prepend_valid (p : Bytes) (x : Option (Bytes × Bytes)) (t r : Bytes)
    (hp : ∀ y, validUTF8 y = true → validUTF8 (p ++ y) = true)
    (hx : ∀ y z, x = some (y, z) → validUTF8 y = true)
    (h : prepend p x = some (t, r)) : validUTF8 t = true := by
  cases x with
  | none => simp [prepend] at h
  | some yz =>
    obtain ⟨y, z⟩ := yz
    simp only [prepend, Option.map_some', Option.some.injEq, Prod.mk.injEq] at h
    rw [← h.1]
    exact hp y (hx y z rfl)

theorem unescape_lt (e b : Nat) (h : unescape e = some b) : b < 0x80 := by
  unfold unescape at h
  split_ifs at h <;> simp at h <;> omega

theorem scanString_valid (f : Nat) (s t r : Bytes) (h : scanString f s = some (t, r)) :
    validUTF8 t = true := by
  induction f generalizing s t r with
  | zero => simp [scanString] at h
  | succ f ih =>
    cases s with
    | nil => simp [scanString] at h
    | cons c rest =>
      rw [scanString_cons] at h
      have hrune : ∀ (q : Nat) (x : Bytes), prepend (encodeRune q) (scanString f x) = some (t, r) →
          validUTF8 t = true := fun q x hq =>
        prepend_valid _ _ t r (validUTF8_encodeRune_append q) (fun y z hy => ih x y z hy) hq
      have hbyte : ∀ (q : Nat) (x : Bytes), q < 0x80 → prepend [q] (scanString f x) = some (t, r) →
          validUTF8 t = true := fun q x hlt hq =>
        prepend_valid _ _ t r (fun y hy => validUTF8_ascii_append q y hlt hy)
          (fun y z hy => ih x y z hy) hq
      split_ifs at h with h1 h2 h3 h4
      · simp only [Option.some.injEq, Prod.mk.injEq] at h
        rw [← h.1]
        rfl
      · cases rest with
        | nil => simp at h
        | cons e rest1 =>
          simp only [] at h
          split_ifs at h with h5
          · split at h
            · simp at h
            · split_ifs at h
              · exact hrune _ _ h
              · exact hrune _ _ h
              · exact hrune _ _ h
          · split at h
            · rename_i b hb
              exact hbyte b _ (unescape_lt e b hb) h
            · simp at h
      · exact hbyte c _ h4 h
      · exact hrune _ _ h

theorem map_some_inv {α β : Type} (g : α → β) (x : Option α) (y : β)
    (h : x.map g = some y) : ∃ a, x = some a ∧ g a = y :=
  Option.map_eq_some'.mp h

theorem parse_wf (f : Nat) :
    (∀ d s v r, parseValue f d s = some (v, r) → v.WF) ∧
    (∀ d s vs r, parseElems f d s = some (vs, r) → ∀ v ∈ vs, JValue.WF v) ∧
    (∀ d s ms r, parseMembers f d s = some (ms, r) → ∀ m ∈ ms, JValue.WF m.2) := by
  induction f with
  | zero =>
    refine ⟨?_, ?_, ?_⟩ <;> intro d s v r h
    · simp [parseValue] at h
    · simp [parseElems] at h
    · simp [parseMembers] at h
  | succ f ih =>
    obtain ⟨ihv, ihe, ihm⟩ := ih
    refine ⟨?_, ?_, ?_⟩
    · intro d s v r h
      rw [parseValue_succ] at h
      split at h
      · simp at h
      · split_ifs at h
        · split at h
          · simp at h
          · split_ifs at h
            · simp only [Option.some.injEq, Prod.mk.injEq] at h
              rw [← h.1]
              exact JValue.WF.obj [] (by simp)
            · obtain ⟨x, hm, hg⟩ := map_some_inv _ _ _ h
              simp only [Prod.mk.injEq] at hg
              rw [← hg.1]
              exact JValue.WF.obj _ (ihm _ _ x.1 x.2 hm)
        · split at h
          · simp at h
          · split_ifs at h
            · simp only [Option.some.injEq, Prod.mk.injEq] at h
              rw [← h.1]
              exact JValue.WF.arr [] (by simp)
            · obtain ⟨x, hm, hg⟩ := map_some_inv _ _ _ h
              simp only [Prod.mk.injEq] at hg
              rw [← hg.1]
              exact JValue.WF.arr _ (ihe _ _ x.1 x.2 hm)
        · obtain ⟨x, hm, hg⟩ := map_some_inv _ _ _ h
          simp only [Prod.mk.injEq] at hg
          rw [← hg.1]
          exact JValue.WF.str _ (scanString_valid _ _ x.1 x.2 hm)
        · obtain ⟨x, hm, hg⟩ := map_some_inv _ _ _ h
          simp only [Prod.mk.injEq] at hg
          rw [← hg.1]
          exact JValue.WF.num _
        · obtain ⟨x, hm, hg⟩ := map_some_inv _ _ _ h
          simp only [Prod.mk.injEq] at hg
          rw [← hg.1]
          exact JValue.WF.bool _
        · obtain ⟨x, hm, hg⟩ := map_some_inv _ _ _ h
          simp only [Prod.mk.injEq] at hg
          rw [← hg.1]
          exact JValue.WF.bool _
        · obtain ⟨x, hm, hg⟩ := map_some_inv _ _ _ h
          simp only [Prod.mk.injEq] at hg
          rw [← hg.1]
          exact JValue.WF.null
    · intro d s vs r h
      rw [parseElems_succ] at h
      cases hv : parseValue f d s with
      | none => simp [hv] at h
      | some x =>
        obtain ⟨v, r1⟩ := x
        have hvw := ihv d s v r1 hv
        simp only [hv] at h
        split at h
        · simp at h
        · split_ifs at h
          · obtain ⟨x, hm, hg⟩ := map_some_inv _ _ _ h
            simp only [Prod.mk.injEq] at hg
            rw [← hg.1]
            intro w hw
            rcases List.mem_cons.mp hw with e | e
            · rw [e]; exact hvw
            · exact ihe _ _ x.1 x.2 hm w e
          · simp only [Option.some.injEq, Prod.mk.injEq] at h
            rw [← h.1]
            intro w hw
            rw [List.mem_singleton.mp hw]
            exact hvw
    · intro d s ms r h
      rw [parseMembers_succ] at h
      split at h
      · simp at h
      · split_ifs at h
        split at h
        · simp at h
        · split at h
          · simp at h
          · split_ifs at h
            split at h
            · simp at h
            · rename_i v r3 hv
              have hvw := ihv _ _ v r3 hv
              split at h
              · simp at h
              · split_ifs at h
                · obtain ⟨x, hm, hg⟩ := map_some_inv _ _ _ h
                  simp only [Prod.mk.injEq] at hg
                  rw [← hg.1]
                  intro w hw
                  rcases List.mem_cons.mp hw with e | e
                  · rw [e]; exact hvw
                  · exact ihm _ _ x.1 x.2 hm w e
                · simp only [Option.some.injEq, Prod.mk.injEq] at h
                  rw [← h.1]
                  intro w hw
                  rw [List.mem_singleton.mp hw]
                  exact hvw

theorem parseJSON_wf (b : Bytes) (v : JValue) (h : parseJSON b = some v) : v.WF := by
  unfold parseJSON at h
  split at h
  · simp at h
  · rename_i w r hw
    split_ifs at h
    simp only [Option.some.injEq] at h
    rw [← h]
    exact (parse_wf _).1 _ _ w r hw

theorem parseInt_range (lit : Bytes) (n : Int) (h : parseInt lit = some n) :
    -(2 : Int) ^ 63 ≤ n ∧ n < (2 : Int) ^ 63 := by
  unfold parseInt at h
  split at h
  · simp at h
  · split at h
    · simp at h
    · split_ifs at h <;> simp only [Option.some.injEq] at h <;> omega

theorem storeField_wf (u u1 : User) (m : Bytes × JValue) (hu : u.WellFormed) (hm : m.2.WF)
    (h : storeField u m = Except.ok u1) : u1.WellFormed := by
  obtain ⟨h1, h2, h3, h4⟩ := hu
  unfold storeField at h
  split_ifs at h
  · split at h
    · rename_i s hs
      rw [hs] at hm
      cases hm with
      | str _ hv =>
        simp only [Except.ok.injEq] at h
        rw [← h]
        exact ⟨hv, h2, h3, h4⟩
    · simp only [Except.ok.injEq] at h
      rw [← h]
      exact ⟨h1, h2, h3, h4⟩
    · cases h
  · split at h
    · rename_i s hs
      rw [hs] at hm
      cases hm with
      | str _ hv =>
        simp only [Except.ok.injEq] at h
        rw [← h]
        exact ⟨h1, hv, h3, h4⟩
    · simp only [Except.ok.injEq] at h
      rw [← h]
      exact ⟨h1, h2, h3, h4⟩
    · cases h
  · split at h
    · split at h
      · rename_i n hn
        simp only [Except.ok.injEq] at h
        rw [← h]
        obtain ⟨r1, r2⟩ := parseInt_range _ n hn
        exact ⟨h1, h2, r1, r2⟩
      · cases h
    · simp only [Except.ok.injEq] at h
      rw [← h]
      exact ⟨h1, h2, h3, h4⟩
    · cases h
  · simp only [Except.ok.injEq] at h
    rw [← h]
    exact ⟨h1, h2, h3, h4⟩

theorem storeMembers_wf (ms : List (Bytes × JValue)) (u u1 : User) (hu : u.WellFormed)
    (hms : ∀ m ∈ ms, JValue.WF m.2) (h : storeMembers ms u = Except.ok u1) :
    u1.WellFormed := by
  induction ms generalizing u with
  | nil =>
    simp only [storeMembers, Except.ok.injEq] at h
    rw [← h]
    exact hu
  | cons m ms ih =>
    rw [storeMembers] at h
    split at h
    · rename_i u2 h2
      exact ih u2 (storeField_wf u u2 m hu (hms m (List.mem_cons_self _ _)) h2)
        (fun x hx => hms x (List.mem_cons_of_mem _ hx)) h
    · cases h

theorem zero_wf : User.WellFormed ⟨[], [], 0⟩ := by
  refine ⟨rfl, rfl, ?_, ?_⟩ <;> norm_num

theorem decodeUser_wf (v : JValue) (u : User) (hv : v.WF) (h : decodeUser v = Except.ok u) :
    u.WellFormed := by
  cases hv with
  | obj ms hms => exact storeMembers_wf ms _ u zero_wf hms h
  | null =>
    simp only [decodeUser, Except.ok.injEq] at h
    rw [← h]
    exact zero_wf
  | bool b => cases h
  | num lit => cases h
  | str s hs => cases h
  | arr vs hvs => cases h

theorem decodeElems_wf (vs : List JValue) (us : List User) (hvs : ∀ v ∈ vs, JValue.WF v)
    (h : decodeElems vs = Except.ok us) : ∀ u ∈ us, u.WellFormed := by
  induction vs generalizing us with
  | nil =>
    simp only [decodeElems, Except.ok.injEq] at h
    rw [← h]
    simp
  | cons v vs ih =>
    rw [decodeElems] at h
    split at h
    · cases h
    · rename_i u hu
      split at h
      · cases h
      · rename_i us1 hus1
        simp only [Except.ok.injEq] at h
        rw [← h]
        intro x hx
        rcases List.mem_cons.mp hx with e | e
        · rw [e]
          exact decodeUser_wf v u (hvs v (List.mem_cons_self _ _)) hu
        · exact ih us1 (fun w hw => hvs w (List.mem_cons_of_mem _ hw)) hus1 x e

theorem decodeUsers_wf (v : JValue) (c : Users) (hv : v.WF) (h : decodeUsers v = Except.ok c) :
    c.WellFormed := by
  cases hv with
  | arr vs hvs =>
    rw [decodeUsers] at h
    split at h
    · cases h
    · rename_i us hus
      simp only [Except.ok.injEq] at h
      rw [← h]
      exact decodeElems_wf vs us hvs hus
  | null =>
    simp only [decodeUsers, Except.ok.injEq] at h
    rw [← h]
    intro u hu
    simp [Users.items] at hu
  | bool b => cases h
  | num lit => cases h
  | str s hs => cases h
  | obj ms hms => cases h

/-- A record `newUserFromBytes` returns is well formed. -/
theorem newUserFromBytes_wf (b : Bytes) (u : User) (h : newUserFromBytes b = Except.ok u) :
    u.WellFormed := by
  unfold newUserFromBytes at h
  split at h
  · cases h
  · rename_i v hv
    exact decodeUser_wf v u (parseJSON_wf b v hv) h

/-- A collection `newUsersFromBytes` returns is well formed. -/
theorem newUsersFromBytes_wf (b : Bytes) (c : Users) (h : newUsersFromBytes b = Except.ok c) :
    c.WellFormed := by
  unfold newUsersFromBytes at h
  split at h
  · cases h
  · rename_i v hv
    exact decodeUsers_wf v c (parseJSON_wf b v hv) h

theorem usersOfBytes_wf (b : Bytes) (c : Users) (h : usersOfBytes b = Except.ok c) :
    c.WellFormed :=
  newUsersFromBytes_wf _ c h

/-- An encoded collection is never empty, so `getUsersFromFile` decodes it as it is. -/
theorem usersOfBytes_toBytes (c : Users) (hwf : c.WellFormed) :
    usersOfBytes c.toBytes = Except.ok c := by
  have hne : ¬ (c.toBytes.length = 0) := by
    cases c with
    | nil => decide
    | slice l => simp [Users.toBytes]
  unfold usersOfBytes
  rw [if_neg hne]
  exact newUsersFromBytes_toBytes c hwf

/-! ## The bounds on recursion are never reached -/

theorem scanString_fuel (n m : Nat) (s : Bytes) (hn : s.length < n) (hm : s.length < m) :
    scanString n s = scanString m s := by
  induction n generalizing m s with
  | zero => omega
  | succ n ih =>
    cases m with
    | zero => omega
    | succ m =>
      cases s with
      | nil => rfl
      | cons c rest =>
        simp only [List.length_cons, Nat.add_lt_add_iff_right] at hn hm
        have hz := decodeRune_size_pos c rest
        have e1 := ih m rest hn hm
        have e2 := ih m ((c :: rest).drop (decodeRune (c :: rest)).2)
          (by simp only [List.length_drop, List.length_cons]; omega)
          (by simp only [List.length_drop, List.length_cons]; omega)
        rw [scanString_cons, scanString_cons, e1, e2]
        cases rest with
        | nil => rfl
        | cons e rest1 =>
          simp only [List.length_cons] at hn hm
          have e3 := ih m rest1 (by omega) (by omega)
          have e4 := ih m (rest1.drop 4) (by simp only [List.length_drop]; omega)
            (by simp only [List.length_drop]; omega)
          have e5 := ih m (rest1.drop 10) (by simp only [List.length_drop]; omega)
            (by simp only [List.length_drop]; omega)
          simp only [e3, e4, e5]

theorem skipSpace_length (s : Bytes) : (skipSpace s).length ≤ s.length := by
  induction s with
  | nil => simp [skipSpace]
  | cons c r ih =>
    rw [skipSpace]
    split
    · simp only [List.length_cons]; omega
    · exact le_refl _

theorem skipSpace_cons_length (s r : Bytes) (c : Nat) (h : skipSpace s = c :: r) :
    r.length < s.length := by
  have := skipSpace_length s
  rw [h, List.length_cons] at this
  omega

theorem prepend_eq_some (p : Bytes) (x : Option (Bytes × Bytes)) (t r : Bytes)
    (h : prepend p x = some (t, r)) : ∃ t1, x = some (t1, r) := by
  cases x with
  | none => simp [prepend] at h
  | some y =>
    obtain ⟨y1, y2⟩ := y
    simp only [prepend, Option.map_some', Option.some.injEq, Prod.mk.injEq] at h
    exact ⟨y1, by rw [h.2]⟩

theorem scanString_length (f : Nat) (s t r : Bytes) (h : scanString f s = some (t, r)) :
    r.length < s.length := by
  induction f generalizing s t r with
  | zero => simp [scanString] at h
  | succ f ih =>
    cases s with
    | nil => simp [scanString] at h
    | cons c rest =>
      rw [scanString_cons] at h
      have hz := decodeRune_size_pos c rest
      have step : ∀ (p x : Bytes), x.length ≤ rest.length →
          prepend p (scanString f x) = some (t, r) → r.length < (c :: rest).length := by
        intro p x hx hp
        obtain ⟨t1, h1⟩ := prepend_eq_some _ _ _ _ hp
        have := ih x t1 r h1
        simp only [List.length_cons]
        omega
      split_ifs at h with h1 h2 h3 h4
      · simp only [Option.some.injEq, Prod.mk.injEq] at h
        rw [← h.2]
        simp
      · cases rest with
        | nil => simp at h
        | cons e rest1 =>
          simp only [] at h
          split_ifs at h with h5
          · split at h
            · simp at h
            · split_ifs at h
              · exact step _ _ (by simp only [List.length_drop, List.length_cons]; omega) h
              · exact step _ _ (by simp only [List.length_drop, List.length_cons]; omega) h
              · exact step _ _ (by simp only [List.length_drop, List.length_cons]; omega) h
          · split at h
            · exact step _ _ (by simp only [List.length_cons]; omega) h
            · simp at h
      · exact step _ _ (le_refl _) h
      · exact step _ _ (by simp only [List.length_drop, List.length_cons]; omega) h

theorem takeDigits_length (s : Bytes) : (takeDigits s).2.length ≤ s.length := by
  induction s with
  | nil => simp [takeDigits]
  | cons b r ih =>
    rw [takeDigits]
    split
    · simp only [List.length_cons]; omega
    · exact le_refl _

theorem scanIntPart_length (s i r : Bytes) (h : scanIntPart s = some (i, r)) :
    r.length ≤ s.length := by
  unfold scanIntPart at h
  split at h
  · simp at h
  · rename_i d r0
    have := takeDigits_length r0
    split_ifs at h <;> simp only [Option.some.injEq, Prod.mk.injEq] at h <;>
      rw [← h.2] <;> simp only [List.length_cons] <;> omega

theorem scanFrac_length (s i r : Bytes) (h : scanFrac s = some (i, r)) :
    r.length ≤ s.length := by
  unfold scanFrac at h
  split at h
  · simp only [Option.some.injEq, Prod.mk.injEq] at h
    rw [← h.2]
  · rename_i d r0
    have := takeDigits_length r0
    split_ifs at h
    · simp only [Option.some.injEq, Prod.mk.injEq] at h
      rw [← h.2]
      simp only [List.length_cons]
      omega
    · simp only [Option.some.injEq, Prod.mk.injEq] at h
      rw [← h.2]

theorem scanExp_length (s i r : Bytes) (h : scanExp s = some (i, r)) :
    r.length ≤ s.length := by
  cases s with
  | nil =>
    simp only [scanExp, Option.some.injEq, Prod.mk.injEq] at h
    rw [← h.2]
  | cons c r0 =>
    simp only [scanExp] at h
    by_cases hc : c = 0x65 ∨ c = 0x45
    · rw [if_pos hc] at h
      cases r0 with
      | nil => simp at h
      | cons g r1 =>
        have h1 := takeDigits_length r1
        have h2 := takeDigits_length (g :: r1)
        simp only [] at h
        split_ifs at h <;> simp only [Option.some.injEq, Prod.mk.injEq] at h <;>
          rw [← h.2] <;> simp only [List.length_cons] at h2 ⊢ <;> omega
    · rw [if_neg hc] at h
      simp only [Option.some.injEq, Prod.mk.injEq] at h
      rw [← h.2]

theorem scanNumber_length (s l r : Bytes) (h : scanNumber s = some (l, r)) :
    r.length ≤ s.length := by
  unfold scanNumber at h
  simp only [] at h
  split at h
  · simp at h
  · rename_i i s1 h1
    split at h
    · simp at h
    · rename_i fr s2 h2
      split at h
      · simp at h
      · rename_i ex s3 h3
        simp only [Option.some.injEq, Prod.mk.injEq] at h
        rw [← h.2]
        have a1 := scanIntPart_length _ _ _ h1
        have a2 := scanFrac_length _ _ _ h2
        have a3 := scanExp_length _ _ _ h3
        simp only [List.length_drop] at a1
        omega

theorem stripLit_length (p s r : Bytes) (h : stripLit p s = some r) : r.length ≤ s.length := by
  unfold stripLit at h
  split_ifs at h
  simp only [Option.some.injEq] at h
  rw [← h]
  simp

theorem parse_length (f : Nat) :
    (∀ d s v r, parseValue f d s = some (v, r) → r.length ≤ s.length) ∧
    (∀ d s vs r, parseElems f d s = some (vs, r) → r.length ≤ s.length) ∧
    (∀ d s ms r, parseMembers f d s = some (ms, r) → r.length ≤ s.length) := by
  induction f with
  | zero =>
    refine ⟨?_, ?_, ?_⟩ <;> intro d s v r h
    · simp [parseValue] at h
    · simp [parseElems] at h
    · simp [parseMembers] at h
  | succ f ih =>
    obtain ⟨ihv, ihe, ihm⟩ := ih
    refine ⟨?_, ?_, ?_⟩
    · intro d s v r h
      rw [parseValue_succ] at h
      split at h
      · simp at h
      · rename_i c r0 hs
        have l0 := skipSpace_cons_length s r0 c hs
        split_ifs at h
        · split at h
          · simp at h
          · rename_i c1 r1 hs1
            have l1 := skipSpace_cons_length r0 r1 c1 hs1
            split_ifs at h
            · simp only [Option.some.injEq, Prod.mk.injEq] at h
              rw [← h.2]
              omega
            · obtain ⟨x, hm, hg⟩ := map_some_inv _ _ _ h
              simp only [Prod.mk.injEq] at hg
              rw [← hg.2]
              have := ihm _ _ x.1 x.2 hm
              omega
        · split at h
          · simp at h
          · rename_i c1 r1 hs1
            have l1 := skipSpace_cons_length r0 r1 c1 hs1
            split_ifs at h
            · simp only [Option.some.injEq, Prod.mk.injEq] at h
              rw [← h.2]
              omega
            · obtain ⟨x, hm, hg⟩ := map_some_inv _ _ _ h
              simp only [Prod.mk.injEq] at hg
              rw [← hg.2]
              have := ihe _ _ x.1 x.2 hm
              omega
        · obtain ⟨x, hm, hg⟩ := map_some_inv _ _ _ h
          simp only [Prod.mk.injEq] at hg
          rw [← hg.2]
          have := scanString_length _ _ x.1 x.2 hm
          omega
        · obtain ⟨x, hm, hg⟩ := map_some_inv _ _ _ h
          simp only [Prod.mk.injEq] at hg
          rw [← hg.2]
          have := scanNumber_length _ x.1 x.2 hm
          simp only [List.length_cons] at this
          omega
        · obtain ⟨x, hm, hg⟩ := map_some_inv _ _ _ h
          simp only [Prod.mk.injEq] at hg
          rw [← hg.2]
          have := stripLit_length _ _ x hm
          simp only [List.length_cons] at this
          omega
        · obtain ⟨x, hm, hg⟩ := map_some_inv _ _ _ h
          simp only [Prod.mk.injEq] at hg
          rw [← hg.2]
          have := stripLit_length _ _ x hm
          simp only [List.length_cons] at this
          omega
        · obtain ⟨x, hm, hg⟩ := map_some_inv _ _ _ h
          simp only [Prod.mk.injEq] at hg
          rw [← hg.2]
          have := stripLit_length _ _ x hm
          simp only [List.length_cons] at this
          omega
    · intro d s vs r h
      rw [parseElems_succ] at h
      cases hv : parseValue f d s with
      | none => simp [hv] at h
      | some x =>
        obtain ⟨v, r1⟩ := x
        have l0 := ihv d s v r1 hv
        simp only [hv] at h
        split at h
        · simp at h
        · rename_i c r2 hs
          have l1 := skipSpace_cons_length r1 r2 c hs
          split_ifs at h
          · obtain ⟨x, hm, hg⟩ := map_some_inv _ _ _ h
            simp only [Prod.mk.injEq] at hg
            rw [← hg.2]
            have := ihe _ _ x.1 x.2 hm
            omega
          · simp only [Option.some.injEq, Prod.mk.injEq] at h
            rw [← h.2]
            omega
    · intro d s ms r h
      rw [parseMembers_succ] at h
      split at h
      · simp at h
      · rename_i q r0 hs
        have l0 := skipSpace_cons_length s r0 q hs
        split_ifs at h
        split at h
        · simp at h
        · rename_i k r1 hk
          have l1 := scanString_length _ _ k r1 hk
          split at h
          · simp at h
          · rename_i c r2 hs2
            have l2 := skipSpace_cons_length r1 r2 c hs2
            split_ifs at h
            split at h
            · simp at h
            · rename_i v r3 hv
              have l3 := ihv _ _ v r3 hv
              split at h
              · simp at h
              · rename_i c1 r4 hs4
                have l4 := skipSpace_cons_length r3 r4 c1 hs4
                split_ifs at h
                · obtain ⟨x, hm, hg⟩ := map_some_inv _ _ _ h
                  simp only [Prod.mk.injEq] at hg
                  rw [← hg.2]
                  have := ihm _ _ x.1 x.2 hm
                  omega
                · simp only [Option.some.injEq, Prod.mk.injEq] at h
                  rw [← h.2]
                  omega

/-- Beyond twice the length of the input the result of the scanner does not
depend on the bound on its recursion. -/
theorem parse_fuel (f : Nat) :
    (∀ g d s, 2 * s.length + 1 ≤ f → 2 * s.length + 1 ≤ g →
      parseValue f d s = parseValue g d s) ∧
    (∀ g d s, 2 * s.length + 2 ≤ f → 2 * s.length + 2 ≤ g →
      parseElems f d s = parseElems g d s) ∧
    (∀ g d s, 2 * s.length + 2 ≤ f → 2 * s.length + 2 ≤ g →
      parseMembers f d s = parseMembers g d s) := by
  induction f with
  | zero =>
    refine ⟨?_, ?_, ?_⟩ <;> intro g d s hf hg <;> omega
  | succ f ih =>
    obtain ⟨ihv, ihe, ihm⟩ := ih
    refine ⟨?_, ?_, ?_⟩
    · intro g d s hf hg
      obtain ⟨g, rfl⟩ : ∃ k, g = k + 1 := ⟨g - 1, by omega⟩
      rw [parseValue_succ, parseValue_succ]
      cases hs : skipSpace s with
      | nil => rfl
      | cons c r0 =>
        have l0 := skipSpace_cons_length s r0 c hs
        simp only [ihe g (d + 1) r0 (by omega) (by omega), ihm g (d + 1) r0 (by omega) (by omega)]
    · intro g d s hf hg
      obtain ⟨g, rfl⟩ : ∃ k, g = k + 1 := ⟨g - 1, by omega⟩
      rw [parseElems_succ, parseElems_succ, ihv g d s (by omega) (by omega)]
      cases hv : parseValue g d s with
      | none => rfl
      | some x =>
        obtain ⟨v, r1⟩ := x
        have l0 := (parse_length g).1 d s v r1 hv
        simp only []
        cases hs : skipSpace r1 with
        | nil => rfl
        | cons c r2 =>
          have l1 := skipSpace_cons_length r1 r2 c hs
          simp only [ihe g d r2 (by omega) (by omega)]
    · intro g d s hf hg
      obtain ⟨g, rfl⟩ : ∃ k, g = k + 1 := ⟨g - 1, by omega⟩
      rw [parseMembers_succ, parseMembers_succ]
      cases hs : skipSpace s with
      | nil => rfl
      | cons q r0 =>
        have l0 := skipSpace_cons_length s r0 q hs
        simp only []
        split_ifs
        · cases hk : scanString (r0.length + 1) r0 with
          | none => rfl
          | some x =>
            obtain ⟨k, r1⟩ := x
            have l1 := scanString_length _ _ k r1 hk
            simp only []
            cases hs2 : skipSpace r1 with
            | nil => rfl
            | cons c r2 =>
              have l2 := skipSpace_cons_length r1 r2 c hs2
              simp only []
              split_ifs
              · rw [ihv g d r2 (by omega) (by omega)]
                cases hv : parseValue g d r2 with
                | none => rfl
                | some y =>
                  obtain ⟨v, r3⟩ := y
                  have l3 := (parse_length g).1 d r2 v r3 hv
                  simp only []
                  cases hs4 : skipSpace r3 with
                  | nil => rfl
                  | cons c1 r4 =>
                    have l4 := skipSpace_cons_length r3 r4 c1 hs4
                    simp only [ihm g d r4 (by omega) (by omega)]
              · rfl
        · rfl

/-- The bound `parseJSON` sets on the recursion of the scanner is never
reached: any larger bound gives the same result. -/
theorem parseJSON_fuel (input : Bytes) (g : Nat) (hg : 2 * input.length + 2 ≤ g) :
    parseValue g 0 input = parseValue (2 * input.length + 2) 0 input :=
  (parse_fuel g).1 _ 0 input (by omega) (by omega)

/-- The bound on the iterations of `scanString` at its two call sites is never
reached: any larger bound gives the same result. -/
theorem scanString_bound (r : Bytes) (g : Nat) (hg : r.length + 1 ≤ g) :
    scanString g r = scanString (r.length + 1) r :=
  scanString_fuel g _ r (by omega) (by omega)

theorem decDigits_fuel (f g n : Nat) (hf : n < f) (hg : n < g) :
    decDigits f n = decDigits g n := by
  induction f generalizing g n with
  | zero => omega
  | succ f ih =>
    obtain ⟨g, rfl⟩ : ∃ k, g = k + 1 := ⟨g - 1, by omega⟩
    rw [decDigits, decDigits]
    split
    · rfl
    · rw [ih g (n / 10) (by omega) (by omega)]

/-! ## The embedding on concrete inputs -/

/-- Keys match field names without regard to case, an unknown key is skipped
with its value, `null` leaves a field as it is, and a later member overrides
an earlier one. -/
theorem decode_matches_keys :
    newUserFromBytes (bytesOf
        " \x7b \"ID\" : \"a\", \"x\": [1.5e3, \x7b\"y\": true\x7d], \"Email\": null, \"AGE\": -7, \"id\": \"b\" \x7d ")
      = Except.ok ⟨bytesOf "b", [], -7⟩ := by
  decide

/-- Escapes are resolved: a surrogate pair gives one code point, a lone
surrogate and a byte that is not UTF-8 give U+FFFD. -/
theorem decode_resolves_escapes :
    newUserFromBytes (bytesOf "\x7b\"id\":\"\\u00e9\\n\\ud83d\\ude00\\ud83d\"\x7d")
        = Except.ok ⟨bytesOf "é\n😀\uFFFD", [], 0⟩ ∧
      newUserFromBytes ([0x7B, 0x22, 0x69, 0x64, 0x22, 0x3A, 0x22, 0xFF, 0x22, 0x7D])
        = Except.ok ⟨bytesOf "\uFFFD", [], 0⟩ := by
  constructor <;> decide

/-- An age is an integer literal within the range of `int`; a string where a
number is expected, or a number where a string is expected, is a type error. -/
theorem decode_checks_types :
    newUserFromBytes (bytesOf "\x7b\"age\":-9223372036854775808\x7d")
        = Except.ok ⟨[], [], -9223372036854775808⟩ ∧
      newUserFromBytes (bytesOf "\x7b\"age\":9223372036854775808\x7d")
        = Except.error Err.wrongType ∧
      newUserFromBytes (bytesOf "\x7b\"age\":3.0\x7d") = Except.error Err.wrongType ∧
      newUserFromBytes (bytesOf "\x7b\"age\":\"3\"\x7d") = Except.error Err.wrongType ∧
      newUserFromBytes (bytesOf "\x7b\"id\":3\x7d") = Except.error Err.wrongType ∧
      newUserFromBytes (bytesOf "[]") = Except.error Err.wrongType ∧
      newUserFromBytes (bytesOf "null") = Except.ok ⟨[], [], 0⟩ := by
  refine ⟨?_, ?_, ?_, ?_, ?_, ?_, ?_⟩ <;> decide

/-- Texts the scanner rejects. -/
theorem decode_rejects_bad_json :
    newUsersFromBytes (bytesOf "") = Except.error Err.invalidJSON ∧
      newUsersFromBytes (bytesOf "[\x7b\"id\":\"1\"\x7d,]") = Except.error Err.invalidJSON ∧
      newUsersFromBytes (bytesOf "[\x7b\"age\":01\x7d]") = Except.error Err.invalidJSON ∧
      newUsersFromBytes (bytesOf "[\x7b\"id\":\"a\nb\"\x7d]") = Except.error Err.invalidJSON ∧
      newUsersFromBytes (bytesOf "[\x7b\"id\":\"\\x\"\x7d]") = Except.error Err.invalidJSON ∧
      newUsersFromBytes (bytesOf "[] []") = Except.error Err.invalidJSON := by
  refine ⟨?_, ?_, ?_, ?_, ?_, ?_⟩ <;> decide

/-- What `json.Marshal` writes: HTML-sensitive characters, control characters,
U+2028 and invalid bytes are escaped, other text is copied. -/
theorem marshal_escapes :
    marshalUser ⟨bytesOf "a<b>&\"\\\n\x01\u2028é", [0xC3], -12⟩
      = bytesOf "\x7b\"id\":\"a\\u003cb\\u003e\\u0026\\\"\\\\\\n\\u0001\\u2028é\",\"email\":\"\\ufffd\",\"age\":-12\x7d" := by
  decide

/-- The collections `getUsersFromFile` reads from an empty file, from `[]` and
from `null`, and what `toBytes` writes for them. -/
theorem empty_collections :
    usersOfBytes [] = Except.ok (Users.slice []) ∧
      usersOfBytes (bytesOf "[]") = Except.ok (Users.slice []) ∧
      usersOfBytes (bytesOf "null") = Except.ok Users.nil ∧
      (Users.slice []).toBytes = bytesOf "[]" ∧
      Users.nil.toBytes = bytesOf "null" := by
  refine ⟨?_, ?_, ?_, ?_, ?_⟩ <;> decide

/-! ## The claims -/

/-- C1, at the input of the worked example: the file holds `[]` and the item
has a new id.  `add` reports success, but the file then holds the old two
bytes followed by the new array, which is not the encoding of the one-record
collection and is no JSON text any more. -/
theorem add_keeps_old_bytes_in_front :
    (add sampleItem sampleName (oneFile sampleName (bytesOf "[]"))).1 = Except.ok [] ∧
    (add sampleItem sampleName (oneFile sampleName (bytesOf "[]"))).2 sampleName
      = Node.file (bytesOf "[][\x7b\"id\":\"1\",\"email\":\"a@x.com\",\"age\":30\x7d]") ∧
    (Users.slice [sampleUser]).toBytes
      = bytesOf "[\x7b\"id\":\"1\",\"email\":\"a@x.com\",\"age\":30\x7d]" ∧
    (add sampleItem sampleName (oneFile sampleName (bytesOf "[]"))).2 sampleName
      ≠ Node.file (Users.slice [sampleUser]).toBytes ∧
    usersOfBytes (bytesOf "[][\x7b\"id\":\"1\",\"email\":\"a@x.com\",\"age\":30\x7d]")
      = Except.error Err.invalidJSON := by
  refine ⟨?_, ?_, ?_, ?_, ?_⟩ <;> decide

/-- C10: when the file holds `b`, which decodes to `c`, and the item has an id
that no record of `c` has, `add` leaves the file holding `b` followed by the
encoding of `c` with the item at its end; this is that encoding itself exactly
when `b` is empty. -/
theorem add_writes_after_old_content (item fileName b : Bytes) (fs : FS) (u : User) (c : Users)
    (hname : fileName ≠ []) (hfile : fs fileName = Node.file b)
    (hdec : usersOfBytes b = Except.ok c) (hitem : newUserFromBytes item = Except.ok u)
    (hnew : ∀ v ∈ c.items, v.Id ≠ u.Id) :
    add item fileName fs =
        (Except.ok [], Function.update fs fileName
          (Node.file (b ++ (Users.slice (c.items ++ [u])).toBytes))) ∧
      (b ++ (Users.slice (c.items ++ [u])).toBytes = (Users.slice (c.items ++ [u])).toBytes
        ↔ b = []) := by
  have hno : ¬ (isIdExists c.items u.Id = true) := by
    rw [isIdExists_iff]
    rintro ⟨v, hv, e⟩
    exact hnew v hv e
  have h := add_eq item fileName fs u c (openable_of_file hname hfile) hitem (by rw [hfile]; exact hdec)
  rw [if_neg hno, hfile] at h
  exact ⟨h, List.append_left_eq_self⟩

/-- C10 at the file `[]` and the item of the worked example. -/
theorem add_writes_after_old_content_witness :
    add sampleItem sampleName (oneFile sampleName (bytesOf "[]")) =
        (Except.ok [], Function.update (oneFile sampleName (bytesOf "[]")) sampleName
          (Node.file (bytesOf "[]" ++ (Users.slice ((Users.slice []).items ++ [sampleUser])).toBytes))) ∧
      (bytesOf "[]" ++ (Users.slice ((Users.slice []).items ++ [sampleUser])).toBytes
          = (Users.slice ((Users.slice []).items ++ [sampleUser])).toBytes
        ↔ bytesOf "[]" = []) :=
  add_writes_after_old_content sampleItem sampleName (bytesOf "[]")
    (oneFile sampleName (bytesOf "[]")) sampleUser (Users.slice [])
    (by decide) (by decide) (by decide) (by decide) (by decide)

/-- C2: when the file decodes to `c` and `id` is not empty and occurs in `c`,
`remove` returns no error and no bytes, and the file then holds exactly the
encoding of `c` without its first record of that id: one record fewer, the
others in their order, and decoding the file gives that collection. -/
theorem remove_deletes_first_match (id fileName b : Bytes) (fs : FS) (c : Users)
    (hname : fileName ≠ []) (hfile : fs fileName = Node.file b)
    (hdec : usersOfBytes b = Except.ok c) (hid : id ≠ [])
    (hocc : ∃ u ∈ c.items, u.Id = id) :
    ∃ pre u post, c.items = pre ++ u :: post ∧ u.Id = id ∧ (∀ v ∈ pre, v.Id ≠ id) ∧
      remove id fileName fs =
        (Except.ok [], Function.update fs fileName (Node.file (Users.slice (pre ++ post)).toBytes)) ∧
      usersOfBytes (Users.slice (pre ++ post)).toBytes = Except.ok (Users.slice (pre ++ post)) ∧
      (pre ++ post).length + 1 = c.items.length := by
  obtain ⟨pre, u, post, hsplit, hu, hpre⟩ := exists_first_split c.items id hocc
  refine ⟨pre, u, post, hsplit, hu, hpre, ?_, ?_, ?_⟩
  · have h := remove_eq id fileName fs c (openable_of_file hname hfile) hid (by rw [hfile]; exact hdec)
    rw [hsplit, indexOfId_split pre post u id hu hpre] at h
    simpa using h
  · apply usersOfBytes_toBytes
    intro v hv
    apply usersOfBytes_wf b c hdec v
    rw [hsplit]
    simp only [Users.items, List.mem_append, List.mem_cons] at hv ⊢
    tauto
  · rw [hsplit]
    simp only [List.length_append, List.length_cons]
    omega

/-- C2 at a file of two records, removing the second. -/
theorem remove_deletes_first_match_witness :
    ∃ pre u post, (Users.slice [sampleUser, otherUser]).items = pre ++ u :: post ∧
      u.Id = bytesOf "7" ∧ (∀ v ∈ pre, v.Id ≠ bytesOf "7") ∧
      remove (bytesOf "7") sampleName
          (oneFile sampleName (Users.slice [sampleUser, otherUser]).toBytes) =
        (Except.ok [], Function.update
          (oneFile sampleName (Users.slice [sampleUser, otherUser]).toBytes) sampleName
          (Node.file (Users.slice (pre ++ post)).toBytes)) ∧
      usersOfBytes (Users.slice (pre ++ post)).toBytes = Except.ok (Users.slice (pre ++ post)) ∧
      (pre ++ post).length + 1 = (Users.slice [sampleUser, otherUser]).items.length :=
  remove_deletes_first_match (bytesOf "7") sampleName (Users.slice [sampleUser, otherUser]).toBytes
    (oneFile sampleName (Users.slice [sampleUser, otherUser]).toBytes)
    (Users.slice [sampleUser, otherUser])
    (by decide) (by decide) (by decide) (by decide) ⟨otherUser, by decide, by decide⟩

/-- C3: when the file decodes to a collection and `id` is not empty and occurs
in none of its records, `remove` returns no error and the fixed text
`Item with id 2 not found`, whatever `id` is, and the file system is as
before. -/
theorem remove_missing_id (id fileName b : Bytes) (fs : FS) (c : Users)
    (hname : fileName ≠ []) (hfile : fs fileName = Node.file b)
    (hdec : usersOfBytes b = Except.ok c) (hid : id ≠ [])
    (hnone : ∀ u ∈ c.items, u.Id ≠ id) :
    remove id fileName fs = (Except.ok (bytesOf "Item with id 2 not found"), fs) := by
  have h := remove_eq id fileName fs c (openable_of_file hname hfile) hid (by rw [hfile]; exact hdec)
  rw [indexOfId_none c.items id hnone, created_of_file hfile] at h
  exact h

/-- C3 at a file of one record and the id `7`. -/
theorem remove_missing_id_witness :
    remove (bytesOf "7") sampleName (oneFile sampleName (Users.slice [sampleUser]).toBytes)
      = (Except.ok (bytesOf "Item with id 2 not found"),
          oneFile sampleName (Users.slice [sampleUser]).toBytes) :=
  remove_missing_id (bytesOf "7") sampleName (Users.slice [sampleUser]).toBytes
    (oneFile sampleName (Users.slice [sampleUser]).toBytes) (Users.slice [sampleUser])
    (by decide) (by decide) (by decide) (by decide) (by decide)

/-- What `add` does on an empty file, or where a file can be created: one
record is stored. -/
theorem add_fresh (item fileName : Bytes) (fs : FS) (u : User)
    (hname : fileName ≠ []) (hitem : newUserFromBytes item = Except.ok u)
    (hfresh : (fs fileName = Node.free ∧ 0 ∉ fileName) ∨ fs fileName = Node.file []) :
    add item fileName fs =
      (Except.ok [], Function.update fs fileName (Node.file (Users.slice [u]).toBytes)) := by
  have hget : (fs fileName).content = [] := by
    rcases hfresh with ⟨h, _⟩ | h <;> rw [h] <;> rfl
  have hopen : Openable fileName fs := by
    rcases hfresh with ⟨h, hnul⟩ | h
    · exact openable_of_free hname hnul h
    · exact openable_of_file hname h
  have h := add_eq item fileName fs u (Users.slice []) hopen hitem
    (by rw [hget]; exact usersOfBytes_nil)
  rw [hget] at h
  simpa [isIdExists, Users.items] using h

/-- C4 as stated fails in its last part: under a name in a directory that does
not exist no file is there, `os.OpenFile` fails, and both calls of `add` return
its error and store nothing; the same under a name with a NUL byte, which Go
refuses before it asks the system. -/
theorem add_twice_where_no_file_can_be_created :
    noFilesNoDir nameInNoDir = Node.fails Errno.ENOENT ∧
      newUserFromBytes sampleItem = Except.ok sampleUser ∧
      add sampleItem nameInNoDir noFilesNoDir
        = (Except.error (Err.pathError Errno.ENOENT), noFilesNoDir) ∧
      add sampleItem nameInNoDir (add sampleItem nameInNoDir noFilesNoDir).2
        = (Except.error (Err.pathError Errno.ENOENT), noFilesNoDir) ∧
      noFiles nameWithNul = Node.free ∧
      add sampleItem nameWithNul noFiles
        = (Except.error (Err.pathError Errno.EINVAL), noFiles) ∧
      add sampleItem nameWithNul (add sampleItem nameWithNul noFiles).2
        = (Except.error (Err.pathError Errno.EINVAL), noFiles) := by
  have hitem : newUserFromBytes sampleItem = Except.ok sampleUser := by decide
  have h1 : add sampleItem nameInNoDir noFilesNoDir
      = (Except.error (Err.pathError Errno.ENOENT), noFilesNoDir) :=
    add_of_open_error _ _ _ sampleUser _ hitem
      (openFile_fails _ _ Errno.ENOENT (by decide) (by decide) (by decide))
  have h2 : add sampleItem nameWithNul noFiles
      = (Except.error (Err.pathError Errno.EINVAL), noFiles) :=
    add_of_open_error _ _ _ sampleUser _ hitem (openFile_nul _ _ (by decide) (by decide) (by simp [noFiles]))
  refine ⟨by decide, hitem, h1, ?_, by decide, h2, ?_⟩
  · rw [h1]
    exact h1
  · rw [h2]
    exact h2

/-- C4, amended: when the file decodes to a collection with a record of the
item's id, `add` returns no error and the text `Item with id <id> already
exists`, and the file system is as before.  In particular, after the item was
added to an empty file, or to an absent file that can be created, adding it
again returns that text, changes nothing, and the file decodes to the one
record. -/
theorem add_existing_id (item fileName : Bytes) (fs : FS) (u : User)
    (hname : fileName ≠ []) (hitem : newUserFromBytes item = Except.ok u) :
    (∀ b c, fs fileName = Node.file b → usersOfBytes b = Except.ok c →
      (∃ v ∈ c.items, v.Id = u.Id) →
      add item fileName fs =
        (Except.ok (bytesOf "Item with id " ++ u.Id ++ bytesOf " already exists"), fs)) ∧
    ((fs fileName = Node.free ∧ 0 ∉ fileName) ∨ fs fileName = Node.file [] →
      add item fileName (add item fileName fs).2 =
        (Except.ok (bytesOf "Item with id " ++ u.Id ++ bytesOf " already exists"),
          (add item fileName fs).2) ∧
      ∃ content, (add item fileName fs).2 fileName = Node.file content ∧
        usersOfBytes content = Except.ok (Users.slice [u])) := by
  have hdup : ∀ (fs1 : FS) b c, fs1 fileName = Node.file b → usersOfBytes b = Except.ok c →
      (∃ v ∈ c.items, v.Id = u.Id) →
      add item fileName fs1 =
        (Except.ok (bytesOf "Item with id " ++ u.Id ++ bytesOf " already exists"), fs1) := by
    intro fs1 b c hfile hdec hocc
    have h := add_eq item fileName fs1 u c (openable_of_file hname hfile) hitem
      (by rw [hfile]; exact hdec)
    rw [if_pos ((isIdExists_iff c.items u.Id).mpr hocc), created_of_file hfile] at h
    exact h
  refine ⟨hdup fs, ?_⟩
  intro hfresh
  have hwf : (Users.slice [u]).WellFormed := by
    intro v hv
    simp only [Users.items, List.mem_singleton] at hv
    rw [hv]
    exact newUserFromBytes_wf item u hitem
  have hround := usersOfBytes_toBytes (Users.slice [u]) hwf
  have hfirst := add_fresh item fileName fs u hname hitem hfresh
  have hfile : (add item fileName fs).2 fileName = Node.file (Users.slice [u]).toBytes := by
    rw [hfirst]
    simp
  exact ⟨hdup _ _ _ hfile hround ⟨u, by simp [Users.items], rfl⟩, _, hfile, hround⟩

/-- C4, amended, at a file that holds the record of the worked example, and
with the item added twice where no file is yet and where the file is empty. -/
theorem add_existing_id_witness :
    add sampleItem sampleName (oneFile sampleName (Users.slice [sampleUser]).toBytes) =
        (Except.ok (bytesOf "Item with id " ++ sampleUser.Id ++ bytesOf " already exists"),
          oneFile sampleName (Users.slice [sampleUser]).toBytes) ∧
      (add sampleItem sampleName (add sampleItem sampleName noFiles).2 =
        (Except.ok (bytesOf "Item with id " ++ sampleUser.Id ++ bytesOf " already exists"),
          (add sampleItem sampleName noFiles).2) ∧
      ∃ content, (add sampleItem sampleName noFiles).2 sampleName = Node.file content ∧
        usersOfBytes content = Except.ok (Users.slice [sampleUser])) ∧
      (add sampleItem sampleName (add sampleItem sampleName (oneFile sampleName [])).2 =
        (Except.ok (bytesOf "Item with id " ++ sampleUser.Id ++ bytesOf " already exists"),
          (add sampleItem sampleName (oneFile sampleName [])).2) ∧
      ∃ content, (add sampleItem sampleName (oneFile sampleName [])).2 sampleName
          = Node.file content ∧
        usersOfBytes content = Except.ok (Users.slice [sampleUser])) :=
  ⟨(add_existing_id sampleItem sampleName (oneFile sampleName (Users.slice [sampleUser]).toBytes)
      sampleUser (by decide) (by decide)).1 (Users.slice [sampleUser]).toBytes
      (Users.slice [sampleUser]) (by decide) (by decide) ⟨sampleUser, by decide, rfl⟩,
   (add_existing_id sampleItem sampleName noFiles sampleUser (by decide) (by decide)).2
      (Or.inl ⟨by decide, by decide⟩),
   (add_existing_id sampleItem sampleName (oneFile sampleName []) sampleUser (by decide)
      (by decide)).2 (Or.inr (by decide))⟩

/-- C5: when the file decodes to `c` and `id` is not empty, `findById` returns
no error and the encoding of the first record of `c` with that id, or no bytes
when `c` has no such record; the file system is as before in both cases. -/
theorem findById_first_match (fileName id b : Bytes) (fs : FS) (c : Users)
    (hname : fileName ≠ []) (hfile : fs fileName = Node.file b)
    (hdec : usersOfBytes b = Except.ok c) (hid : id ≠ []) :
    (∀ pre u post, c.items = pre ++ u :: post → u.Id = id → (∀ v ∈ pre, v.Id ≠ id) →
      findById fileName id fs = (Except.ok (marshalUser u), fs)) ∧
    ((∀ v ∈ c.items, v.Id ≠ id) → findById fileName id fs = (Except.ok [], fs)) := by
  have h := findById_eq id fileName fs c (openable_of_file hname hfile) hid (by rw [hfile]; exact hdec)
  rw [created_of_file hfile] at h
  constructor
  · intro pre u post hsplit hu hpre
    rw [hsplit, firstWithId_split pre post u id hu hpre] at h
    exact h
  · intro hnone
    rw [firstWithId_none c.items id hnone] at h
    exact h

/-- C5 at a file of two records, for the id of the second and for an id that
neither has. -/
theorem findById_first_match_witness :
    findById sampleName (bytesOf "7")
        (oneFile sampleName (Users.slice [sampleUser, otherUser]).toBytes)
      = (Except.ok (marshalUser otherUser),
          oneFile sampleName (Users.slice [sampleUser, otherUser]).toBytes) ∧
    findById sampleName (bytesOf "9")
        (oneFile sampleName (Users.slice [sampleUser, otherUser]).toBytes)
      = (Except.ok [], oneFile sampleName (Users.slice [sampleUser, otherUser]).toBytes) :=
  ⟨(findById_first_match sampleName (bytesOf "7") (Users.slice [sampleUser, otherUser]).toBytes
      (oneFile sampleName (Users.slice [sampleUser, otherUser]).toBytes)
      (Users.slice [sampleUser, otherUser]) (by decide) (by decide) (by decide) (by decide)).1
      [sampleUser] otherUser [] (by decide) (by decide) (by decide),
   (findById_first_match sampleName (bytesOf "9") (Users.slice [sampleUser, otherUser]).toBytes
      (oneFile sampleName (Users.slice [sampleUser, otherUser]).toBytes)
      (Users.slice [sampleUser, otherUser]) (by decide) (by decide) (by decide) (by decide)).2
      (by decide)⟩

/-- C6 as stated fails: a record whose id is the single byte 0xFF, which is
not valid UTF-8, is encoded with the escape `\ufffd` and decodes to the three
bytes of U+FFFD. -/
theorem roundtrip_fails_on_invalid_utf8 :
    (Users.slice [⟨[0xFF], [], 0⟩]).toBytes
        = bytesOf "[\x7b\"id\":\"\\ufffd\",\"email\":\"\",\"age\":0\x7d]" ∧
      newUsersFromBytes (Users.slice [⟨[0xFF], [], 0⟩]).toBytes
        = Except.ok (Users.slice [⟨[0xEF, 0xBF, 0xBD], [], 0⟩]) ∧
      newUsersFromBytes (Users.slice [⟨[0xFF], [], 0⟩]).toBytes
        ≠ Except.ok (Users.slice [⟨[0xFF], [], 0⟩]) := by
  refine ⟨?_, ?_, ?_⟩ <;> decide

/-- C6, amended: for every collection whose ids and emails are valid UTF-8 (and
whose ages are `int` values), decoding the encoding succeeds and returns the
collection itself. -/
theorem roundtrip_of_well_formed (c : Users) (hwf : c.WellFormed) :
    newUsersFromBytes c.toBytes = Except.ok c :=
  newUsersFromBytes_toBytes c hwf

/-- C6, amended, at a collection of two records. -/
theorem roundtrip_of_well_formed_witness :
    newUsersFromBytes (Users.slice [sampleUser, otherUser]).toBytes
      = Except.ok (Users.slice [sampleUser, otherUser]) :=
  roundtrip_of_well_formed (Users.slice [sampleUser, otherUser]) (by decide)

/-- C7 as stated fails: the file holds two records with the id `1` (nothing
checks an existing file for repeated ids); `remove` succeeds and deletes the
first of them, and what `list` returns afterwards still decodes to a record
with the id `1`. -/
theorem remove_leaves_second_record_of_id :
    usersOfBytes (Users.slice [sampleUser, sampleUser]).toBytes
        = Except.ok (Users.slice [sampleUser, sampleUser]) ∧
      (remove (bytesOf "1") sampleName
          (oneFile sampleName (Users.slice [sampleUser, sampleUser]).toBytes)).1 = Except.ok [] ∧
      (list sampleName (remove (bytesOf "1") sampleName
          (oneFile sampleName (Users.slice [sampleUser, sampleUser]).toBytes)).2).1
        = Except.ok (Users.slice [sampleUser]).toBytes ∧
      usersOfBytes (Users.slice [sampleUser]).toBytes = Except.ok (Users.slice [sampleUser]) ∧
      sampleUser.Id = bytesOf "1" := by
  refine ⟨?_, ?_, ?_, ?_, ?_⟩ <;> decide

/-- C7, amended: when the file decodes to a collection with exactly one record
of identifier `id` (not empty), `remove` succeeds, and what `list` returns
afterwards decodes to a collection with no record of that identifier. -/
theorem remove_then_list_has_no_id (id fileName b : Bytes) (fs : FS) (c : Users)
    (hname : fileName ≠ []) (hfile : fs fileName = Node.file b)
    (hdec : usersOfBytes b = Except.ok c) (hid : id ≠ [])
    (hone : (c.items.filter (fun v => decide (v.Id = id))).length = 1) :
    (remove id fileName fs).1 = Except.ok [] ∧
      ∃ out c1, (list fileName (remove id fileName fs).2).1 = Except.ok out ∧
        usersOfBytes out = Except.ok c1 ∧ ∀ v ∈ c1.items, v.Id ≠ id := by
  have hocc : ∃ u ∈ c.items, u.Id = id := by
    have hpos : 0 < (c.items.filter (fun v => decide (v.Id = id))).length := by omega
    obtain ⟨u, hu⟩ := List.exists_mem_of_length_pos hpos
    rw [List.mem_filter] at hu
    exact ⟨u, hu.1, by simpa using hu.2⟩
  obtain ⟨pre, u, post, hsplit, hu, hpre⟩ := exists_first_split c.items id hocc
  have hrm := remove_eq id fileName fs c (openable_of_file hname hfile) hid (by rw [hfile]; exact hdec)
  rw [hsplit, indexOfId_split pre post u id hu hpre] at hrm
  have hrm2 : remove id fileName fs =
      (Except.ok [], Function.update fs fileName (Node.file (Users.slice (pre ++ post)).toBytes)) := by
    simpa using hrm
  have hwf : (Users.slice (pre ++ post)).WellFormed := by
    intro v hv
    apply usersOfBytes_wf b c hdec v
    rw [hsplit]
    simp only [Users.items, List.mem_append, List.mem_cons] at hv ⊢
    tauto
  have hprefilter : pre.filter (fun v => decide (v.Id = id)) = [] := by
    rw [List.filter_eq_nil_iff]
    intro v hv
    simpa using hpre v hv
  have hpost : ∀ v ∈ post, v.Id ≠ id := by
    rw [hsplit, List.filter_append, hprefilter, List.nil_append,
      List.filter_cons_of_pos (by simpa using hu), List.length_cons] at hone
    have hnil : post.filter (fun v => decide (v.Id = id)) = [] :=
      List.length_eq_zero.mp (by omega)
    rw [List.filter_eq_nil_iff] at hnil
    intro v hv
    simpa using hnil v hv
  refine ⟨by rw [hrm2], (Users.slice (pre ++ post)).toBytes, Users.slice (pre ++ post), ?_,
    usersOfBytes_toBytes _ hwf, ?_⟩
  · rw [hrm2]
    simp [list, readFile, hname]
  · intro v hv
    simp only [Users.items, List.mem_append] at hv
    rcases hv with h | h
    · exact hpre v h
    · exact hpost v h

/-- C7, amended, at a file of two records with different ids. -/
theorem remove_then_list_has_no_id_witness :
    (remove (bytesOf "1") sampleName
        (oneFile sampleName (Users.slice [sampleUser, otherUser]).toBytes)).1 = Except.ok [] ∧
      ∃ out c1, (list sampleName (remove (bytesOf "1") sampleName
          (oneFile sampleName (Users.slice [sampleUser, otherUser]).toBytes)).2).1 = Except.ok out ∧
        usersOfBytes out = Except.ok c1 ∧ ∀ v ∈ c1.items, v.Id ≠ bytesOf "1" :=
  remove_then_list_has_no_id (bytesOf "1") sampleName
    (Users.slice [sampleUser, otherUser]).toBytes
    (oneFile sampleName (Users.slice [sampleUser, otherUser]).toBytes)
    (Users.slice [sampleUser, otherUser]) (by decide) (by decide) (by decide) (by decide)
    (by decide)

/-- C8 as stated fails: under a name in a directory that does not exist no
file is there, yet `add`, `remove` and `findById` return the error of
`os.OpenFile` and create nothing; the same under a name with a NUL byte, which
Go refuses before it asks the system. -/
theorem absent_file_that_cannot_be_created :
    noFilesNoDir nameInNoDir = Node.fails Errno.ENOENT ∧
      newUserFromBytes sampleItem = Except.ok sampleUser ∧
      add sampleItem nameInNoDir noFilesNoDir
        = (Except.error (Err.pathError Errno.ENOENT), noFilesNoDir) ∧
      remove (bytesOf "1") nameInNoDir noFilesNoDir
        = (Except.error (Err.pathError Errno.ENOENT), noFilesNoDir) ∧
      findById nameInNoDir (bytesOf "1") noFilesNoDir
        = (Except.error (Err.pathError Errno.ENOENT), noFilesNoDir) ∧
      noFiles nameWithNul = Node.free ∧
      add sampleItem nameWithNul noFiles
        = (Except.error (Err.pathError Errno.EINVAL), noFiles) ∧
      remove (bytesOf "1") nameWithNul noFiles
        = (Except.error (Err.pathError Errno.EINVAL), noFiles) ∧
      findById nameWithNul (bytesOf "1") noFiles
        = (Except.error (Err.pathError Errno.EINVAL), noFiles) := by
  have hitem : newUserFromBytes sampleItem = Except.ok sampleUser := by decide
  have o1 : openFile nameInNoDir noFilesNoDir = Except.error (Err.pathError Errno.ENOENT) :=
    openFile_fails _ _ Errno.ENOENT (by decide) (by decide) (by decide)
  have o2 : openFile nameWithNul noFiles = Except.error (Err.pathError Errno.EINVAL) :=
    openFile_nul _ _ (by decide) (by decide) (by simp [noFiles])
  exact ⟨by decide, hitem,
    add_of_open_error _ _ _ sampleUser _ hitem o1,
    remove_of_open_error _ _ _ _ (by decide) o1,
    findById_of_open_error _ _ _ _ (by decide) o1,
    by decide,
    add_of_open_error _ _ _ sampleUser _ hitem o2,
    remove_of_open_error _ _ _ _ (by decide) o2,
    findById_of_open_error _ _ _ _ (by decide) o2⟩

/-- C8, amended: when `fileName` names no existing file, `list` fails with an
I/O error and creates nothing.  When moreover a file can be created under that
name, `add` of a well-formed item succeeds and leaves the file holding the
encoding of the one record; `remove` and `findById` with an id that is not
empty succeed and leave the file existing with zero bytes, `remove` returning
the not-found text and `findById` no bytes. -/
theorem absent_file (fileName : Bytes) (fs : FS)
    (hname : fileName ≠ []) (habsent : ∀ b, fs fileName ≠ Node.file b) :
    (∃ errno, list fileName fs = (Except.error (Err.pathError errno), fs)) ∧
    (fs fileName = Node.free → 0 ∉ fileName →
      (∀ item u, newUserFromBytes item = Except.ok u →
        add item fileName fs =
          (Except.ok [], Function.update fs fileName (Node.file (Users.slice [u]).toBytes))) ∧
      (∀ id, id ≠ [] →
        remove id fileName fs =
          (Except.ok (bytesOf "Item with id 2 not found"),
            Function.update fs fileName (Node.file []))) ∧
      (∀ id, id ≠ [] →
        findById fileName id fs
          = (Except.ok [], Function.update fs fileName (Node.file [])))) := by
  constructor
  · unfold list readFile
    simp only [hname, if_false]
    cases h : fs fileName with
    | file b => exact absurd h (habsent b)
    | free =>
      simp only []
      split
      · exact ⟨_, rfl⟩
      · exact ⟨_, rfl⟩
    | fails errno =>
      simp only []
      split
      · exact ⟨_, rfl⟩
      · exact ⟨_, rfl⟩
  · intro hfree hnul
    have hopen := openable_of_free hname hnul hfree
    have hdec : usersOfBytes (fs fileName).content = Except.ok (Users.slice []) := by
      rw [hfree]
      exact usersOfBytes_nil
    refine ⟨?_, ?_, ?_⟩
    · intro item u hitem
      exact add_fresh item fileName fs u hname hitem (Or.inl ⟨hfree, hnul⟩)
    · intro id hid
      have h := remove_eq id fileName fs (Users.slice []) hopen hid hdec
      rw [created_of_free hfree] at h
      exact h
    · intro id hid
      have h := findById_eq id fileName fs (Users.slice []) hopen hid hdec
      rw [created_of_free hfree] at h
      exact h

/-- C8, amended, with no file at all, for the item of the worked example and
the id `1`; and `list` under a name in a directory that does not exist. -/
theorem absent_file_witness :
    (∃ errno, list sampleName noFiles = (Except.error (Err.pathError errno), noFiles)) ∧
    add sampleItem sampleName noFiles =
      (Except.ok [],
        Function.update noFiles sampleName (Node.file (Users.slice [sampleUser]).toBytes)) ∧
    remove (bytesOf "1") sampleName noFiles =
      (Except.ok (bytesOf "Item with id 2 not found"),
        Function.update noFiles sampleName (Node.file [])) ∧
    findById sampleName (bytesOf "1") noFiles
      = (Except.ok [], Function.update noFiles sampleName (Node.file [])) ∧
    (∃ errno, list nameInNoDir noFilesNoDir
      = (Except.error (Err.pathError errno), noFilesNoDir)) :=
  ⟨(absent_file sampleName noFiles (by decide) (by simp [noFiles])).1,
   ((absent_file sampleName noFiles (by decide) (by simp [noFiles])).2 rfl (by decide)).1
     sampleItem sampleUser (by decide),
   ((absent_file sampleName noFiles (by decide) (by simp [noFiles])).2 rfl (by decide)).2.1
     (bytesOf "1") (by decide),
   ((absent_file sampleName noFiles (by decide) (by simp [noFiles])).2 rfl (by decide)).2.2
     (bytesOf "1") (by decide),
   (absent_file nameInNoDir noFilesNoDir (by decide) (by simp [noFilesNoDir])).1⟩

/-- C9: `Perform` returns an error, leaves the writer untouched and leaves the
file system as it was whenever the request is invalid: no operation name, an
operation name outside `list`, `add`, `remove`, `findById` (the error text
carries the name), `list` without a file name, `add` without an item, `remove`
or `findById` without an id. -/
theorem Perform_rejects_invalid_request (args : Arguments) (writer : Writer) (fs : FS) :
    (args (bytesOf "operation") = [] →
      Perform args writer fs =
        (some (Err.text (bytesOf "-operation flag has to be specified")), writer, fs)) ∧
    (args (bytesOf "operation") ≠ [] →
      args (bytesOf "operation") ≠ bytesOf "list" →
      args (bytesOf "operation") ≠ bytesOf "add" →
      args (bytesOf "operation") ≠ bytesOf "remove" →
      args (bytesOf "operation") ≠ bytesOf "findById" →
      Perform args writer fs =
        (some (Err.text (bytesOf "Operation " ++ args (bytesOf "operation")
          ++ bytesOf " not allowed!")), writer, fs)) ∧
    (args (bytesOf "operation") = bytesOf "list" → args (bytesOf "fileName") = [] →
      Perform args writer fs =
        (some (Err.text (bytesOf "-fileName flag has to be specified")), writer, fs)) ∧
    (args (bytesOf "operation") = bytesOf "add" → args (bytesOf "item") = [] →
      Perform args writer fs =
        (some (Err.text (bytesOf "-item flag has to be specified")), writer, fs)) ∧
    (args (bytesOf "operation") = bytesOf "remove" ∨
        args (bytesOf "operation") = bytesOf "findById" →
      args (bytesOf "id") = [] →
      Perform args writer fs =
        (some (Err.text (bytesOf "-id flag has to be specified")), writer, fs)) := by
  have n1 : bytesOf "list" ≠ [] := by decide
  have n2 : bytesOf "add" ≠ bytesOf "list" := by decide
  have n3 : bytesOf "remove" ≠ bytesOf "list" := by decide
  have n4 : bytesOf "remove" ≠ bytesOf "add" := by decide
  have n5 : bytesOf "findById" ≠ bytesOf "list" := by decide
  have n6 : bytesOf "findById" ≠ bytesOf "add" := by decide
  have n7 : bytesOf "findById" ≠ bytesOf "remove" := by decide
  have n8 : ([] : Bytes) ≠ bytesOf "list" := by decide
  have n9 : ([] : Bytes) ≠ bytesOf "add" := by decide
  have n10 : ([] : Bytes) ≠ bytesOf "remove" := by decide
  have n11 : ([] : Bytes) ≠ bytesOf "findById" := by decide
  refine ⟨?_, ?_, ?_, ?_, ?_⟩
  · intro h
    simp only [Perform, h, n8, n9, n10, n11, if_false, if_true]
  · intro h0 h1 h2 h3 h4
    simp only [Perform, h0, h1, h2, h3, h4, if_false]
  · intro h hf
    simp only [Perform, h, hf, list, if_true, deliver]
  · intro h hi
    simp only [Perform, h, hi, n2, add, if_true, if_false, deliver]
  · intro h hi
    rcases h with h | h
    · simp only [Perform, h, hi, n3, n4, remove, if_true, if_false, deliver]
    · simp only [Perform, h, hi, n5, n6, n7, findById, if_true, if_false, deliver]

/-- C9 at one request of each invalid kind, with a file present. -/
theorem Perform_rejects_invalid_request_witness :
    Perform (mkArgs [] sampleItem (bytesOf "1") sampleName) ⟨[], false⟩
        (oneFile sampleName (bytesOf "[]"))
      = (some (Err.text (bytesOf "-operation flag has to be specified")), ⟨[], false⟩,
          oneFile sampleName (bytesOf "[]")) ∧
    Perform (mkArgs (bytesOf "drop") sampleItem (bytesOf "1") sampleName) ⟨[], false⟩
        (oneFile sampleName (bytesOf "[]"))
      = (some (Err.text (bytesOf "Operation "
            ++ mkArgs (bytesOf "drop") sampleItem (bytesOf "1") sampleName (bytesOf "operation")
            ++ bytesOf " not allowed!")), ⟨[], false⟩,
          oneFile sampleName (bytesOf "[]")) ∧
    Perform (mkArgs (bytesOf "list") [] [] []) ⟨[], false⟩ (oneFile sampleName (bytesOf "[]"))
      = (some (Err.text (bytesOf "-fileName flag has to be specified")), ⟨[], false⟩,
          oneFile sampleName (bytesOf "[]")) ∧
    Perform (mkArgs (bytesOf "add") [] [] sampleName) ⟨[], false⟩
        (oneFile sampleName (bytesOf "[]"))
      = (some (Err.text (bytesOf "-item flag has to be specified")), ⟨[], false⟩,
          oneFile sampleName (bytesOf "[]")) ∧
    Perform (mkArgs (bytesOf "remove") [] [] sampleName) ⟨[], false⟩
        (oneFile sampleName (bytesOf "[]"))
      = (some (Err.text (bytesOf "-id flag has to be specified")), ⟨[], false⟩,
          oneFile sampleName (bytesOf "[]")) :=
  ⟨(Perform_rejects_invalid_request _ _ _).1 (by decide),
   (Perform_rejects_invalid_request _ _ _).2.1 (by decide) (by decide) (by decide) (by decide)
     (by decide),
   (Perform_rejects_invalid_request _ _ _).2.2.1 (by decide) (by decide),
   (Perform_rejects_invalid_request _ _ _).2.2.2.1 (by decide) (by decide),
   (Perform_rejects_invalid_request _ _ _).2.2.2.2 (Or.inl (by decide)) (by decide)⟩

end UserStore
